import Mathlib

/-!
# simdzone: the fallback IPv4 decoders of `src/generic/ip4.h`

A shallow embedding of `scan_ip4` and `parse_ip4` and of the constants of
`include/zone.h`, followed by the properties proved about them.

Conventions of the embedding.

* A `const char *` is a function `Nat → Nat` from the offset (relative to the
  pointer the function receives) to the cell stored there.  A cell is a `char`
  and holds one octet: every load reduces the cell modulo 256, as the
  `(uint8_t)` cast of the source does before it computes with it.
* A destination buffer (`uint8_t *`) is a function `Nat → Nat` as well; a store
  is `Function.update`.
* `uint64_t` arithmetic is `Nat` arithmetic reduced modulo `2 ^ 64`.
* The two `for (;;)` loops are bounded by a `fuel` argument, one unit per loop
  round.  `none` means that the fuel ran out before the function returned.
* The results carry, besides what the C function returns and stores, a trace of
  the offsets of the text that were loaded (`reads`) and of the indices used
  into the table `m` (`lookups`), in program order.
-/

namespace Simdzone

/-! ## Constants of `include/zone.h` -/

def ZONE_BLOCK_SIZE : Nat := 64

def ZONE_TAPE_SIZE : Nat := 100 * (ZONE_BLOCK_SIZE + ZONE_BLOCK_SIZE)

/-- The number of entries of the array `tape` of `zone_file.indexer`. -/
def tape_entries : Nat := ZONE_TAPE_SIZE + 1

def ZONE_SUCCESS : Int := 0
def ZONE_SYNTAX_ERROR : Int := -1
def ZONE_SEMANTIC_ERROR : Int := -2
def ZONE_OUT_OF_MEMORY : Int := -3
def ZONE_BAD_PARAMETER : Int := -4
def ZONE_READ_ERROR : Int := -5
def ZONE_NOT_IMPLEMENTED : Int := -6

/-! ## `scan_ip4` -/

/-- The local variables of `scan_ip4` that live across loop rounds, with the
destination `wire` and the trace of loaded offsets. `text` is the offset of the
moving pointer `text` from `start`. -/
structure scan_state where
  text : Nat
  round : Nat
  wire : Nat → Nat
  reads : List Nat

/-- How a loop was left. -/
inductive loop_exit where
  | returned
  | broke
deriving DecidableEq, Repr

/-- What `scan_ip4` hands back: the return value, the destination, the content
of `*length`, the loaded offsets and the final value of `round`. -/
structure scan_result where
  code : Int
  wire : Nat → Nat
  length : Nat
  reads : List Nat
  round : Nat

/-- The `for (;;)` loop of `scan_ip4` (lines 18-39). `returned` stands for the
two `return -1` inside the loop, `broke` for the `break`. -/
def scan_ip4_loop (text : Nat → Nat) : Nat → scan_state → Option (loop_exit × scan_state)
  | 0, _ => none
  | fuel + 1, s =>
    -- digits[i] = (uint8_t)text[i] - '0', stored in a uint8_t
    let d0 := (text s.text % 256 + (256 - 48)) % 256
    let d1 := (text (s.text + 1) % 256 + (256 - 48)) % 256
    let d2 := (text (s.text + 2) % 256 + (256 - 48)) % 256
    let rd := s.reads ++ [s.text, s.text + 1, s.text + 2]
    if d0 > 9 then
      some (.returned, { s with reads := rd })
    else
      let t := if d1 > 9 then s.text + 1 else if d2 > 9 then s.text + 2 else s.text + 3
      let octet := if d1 > 9 then d0 else if d2 > 9 then d0 * 10 + d1
        else d0 * 100 + d1 * 10 + d2
      if octet > 255 then
        some (.returned, { s with text := t, reads := rd })
      else
        -- wire[round++] = (uint8_t)octet
        let w := Function.update s.wire s.round (octet % 256)
        let r := s.round + 1
        let rd := rd ++ [t]
        if text t % 256 ≠ 46 ∨ r = 4 then
          some (.broke, { text := t, round := r, wire := w, reads := rd })
        else
          scan_ip4_loop text fuel { text := t + 1, round := r, wire := w, reads := rd }

/-- The function `scan_ip4` (lines 13-45): `length` is the content of `*length`
on entry, which a failing call leaves alone. -/
def scan_ip4 (fuel : Nat) (text : Nat → Nat) (wire : Nat → Nat) (length : Nat) :
    Option scan_result :=
  match scan_ip4_loop text fuel { text := 0, round := 0, wire := wire, reads := [] } with
  | none => none
  | some (.returned, s) =>
    some { code := -1, wire := s.wire, length := length, reads := s.reads, round := s.round }
  | some (.broke, s) =>
    if s.round ≠ 4 then
      some { code := -1, wire := s.wire, length := length, reads := s.reads, round := s.round }
    else
      some { code := 4, wire := s.wire, length := s.text, reads := s.reads, round := s.round }

/-! ## `parse_ip4` -/

/-- The part of `rdata_t` that `parse_ip4` uses: the cursor `octets`, as an
index into the destination memory `mem`. -/
structure rdata_t where
  octets : Nat
  mem : Nat → Nat

/-- The part of `token_t` that `parse_ip4` uses. -/
structure token_t where
  data : Nat → Nat
  length : Nat

/-- The table `m` of line 59. -/
def m : List Nat := [0, 0, 10, 100]

/-- The local variables of `parse_ip4` that live across loop rounds (`o`, `n`,
`p`, `ps`; `o` is an index into `mem`, `p` and `ps` are offsets from
`token->data`), with the destination memory and the two traces. -/
structure parse_state where
  o : Nat
  n : Nat
  p : Nat
  ps : Nat
  mem : Nat → Nat
  reads : List Nat
  lookups : List Nat

/-- What `parse_ip4` hands back: the return value, `rdata` after the call, the
final value of `p`, and the two traces. -/
structure parse_result where
  code : Int
  rdata : rdata_t
  p : Nat
  reads : List Nat
  lookups : List Nat

/-- The `for (const char *ps = p;; p++)` loop of `parse_ip4` (lines 62-75).
`returned` stands for the `SYNTAX_ERROR` of line 68, `broke` for the `break`.
The differences `p - ps` and `o - os` are taken in `Nat`: `ps` is `p` at the
start and is set to `p + 1` only right before `p++`, and `o` only grows from
`os`. -/
def parse_ip4_loop (data : Nat → Nat) (os : Nat) :
    Nat → parse_state → Option (loop_exit × parse_state)
  | 0, _ => none
  | fuel + 1, s =>
    -- const uint64_t d = (uint8_t)*p - '0';
    let d := (data s.p % 256 + (2 ^ 64 - 48)) % 2 ^ 64
    let rd := s.reads ++ [s.p]
    if d ≤ 9 then
      parse_ip4_loop data os fuel
        { s with n := (s.n * 10 + d % 256) % 2 ^ 64, p := s.p + 1, reads := rd }
    else if s.p - s.ps = 0 then
      some (.returned, { s with reads := rd })
    else if s.p - s.ps > 3 then
      some (.returned, { s with reads := rd })
    else
      let lk := s.lookups ++ [s.p - s.ps]
      if s.n < m.getD (s.p - s.ps) 0 then
        some (.returned, { s with reads := rd, lookups := lk })
      else if s.n > 255 then
        some (.returned, { s with reads := rd, lookups := lk })
      else if s.o - os > 3 then
        some (.returned, { s with reads := rd, lookups := lk })
      else
        -- ps = p + 1; *o++ = (uint8_t)n;
        let mem := Function.update s.mem s.o (s.n % 256)
        let rd := rd ++ [s.p]
        if data s.p % 256 ≠ 46 then
          some (.broke, { o := s.o + 1, n := s.n, p := s.p, ps := s.p + 1, mem := mem,
                          reads := rd, lookups := lk })
        else
          parse_ip4_loop data os fuel
            { o := s.o + 1, n := 0, p := s.p + 1, ps := s.p + 1, mem := mem,
              reads := rd, lookups := lk }

/-- Modelled from the spec: the macro `SYNTAX_ERROR` is not among the sources;
by sections 6 and 7 of the specification a decoder that meets a malformed token
reports a syntax error, and the status code for it is `ZONE_SYNTAX_ERROR` of
`zone.h`. The macro is taken to leave the function with that code. -/
def SYNTAX_ERROR : Int := ZONE_SYNTAX_ERROR

/-- The function `parse_ip4` (lines 48-82). The arguments `parser`, `type` and
`item` only feed the error message and are left out. -/
def parse_ip4 (fuel : Nat) (token : token_t) (rdata : rdata_t) : Option parse_result :=
  let os := rdata.octets
  -- *o = 0;
  let mem := Function.update rdata.mem os 0
  match parse_ip4_loop token.data os fuel
      { o := os, n := 0, p := 0, ps := 0, mem := mem, reads := [], lookups := [] } with
  | none => none
  | some (.returned, s) =>
    some { code := SYNTAX_ERROR, rdata := { octets := rdata.octets, mem := s.mem }, p := s.p,
           reads := s.reads, lookups := s.lookups }
  | some (.broke, s) =>
    if s.p ≠ token.length ∨ s.o - os ≠ 4 then
      some { code := SYNTAX_ERROR, rdata := { octets := rdata.octets, mem := s.mem }, p := s.p,
             reads := s.reads, lookups := s.lookups }
    else
      some { code := 0, rdata := { octets := rdata.octets + 4, mem := s.mem }, p := s.p,
             reads := s.reads, lookups := s.lookups }

/-! ## Vocabulary of the statements -/

/-- The octets of an ASCII string. -/
def ascii (s : String) : List Nat := s.toList.map Char.toNat

/-- The memory that holds the octets `l` from offset 0 on and zeros after. -/
def ofList (l : List Nat) : Nat → Nat := fun i => l.getD i 0

/-- The `len` octets of a text from offset `pos` on. -/
def slice (text : Nat → Nat) (pos : Nat) : Nat → List Nat
  | 0 => []
  | len + 1 => text pos % 256 :: slice text (pos + 1) len

/-- The first `len` octets of a text. -/
def textBytes (text : Nat → Nat) (len : Nat) : List Nat := slice text 0 len

/-- The `len` cells of a destination buffer from index `pos` on. -/
def cells (mem : Nat → Nat) (pos : Nat) : Nat → List Nat
  | 0 => []
  | len + 1 => mem pos :: cells mem (pos + 1) len

/-- The text of dot-separated groups: `g1.g2. ... .gk`. -/
def joinDots : List (List Nat) → List Nat
  | [] => []
  | [g] => g
  | g :: gs => g ++ 46 :: joinDots gs

/-- The text of groups each followed by a dot: `g1.g2. ... .gk.`. -/
def dotted : List (List Nat) → List Nat
  | [] => []
  | g :: gs => g ++ 46 :: dotted gs

/-- The octet is an ASCII decimal digit. -/
def isDigit (c : Nat) : Prop := 48 ≤ c ∧ c ≤ 57

instance (c : Nat) : Decidable (isDigit c) := by unfold isDigit; infer_instance

/-- The value of a run of decimal digits. -/
def decimalValue (g : List Nat) : Nat := g.foldl (fun a c => a * 10 + (c - 48)) 0

/-- A group of an address: one to three decimal digits of value at most 255. -/
def isGroup (g : List Nat) : Prop :=
  1 ≤ g.length ∧ g.length ≤ 3 ∧ (∀ c ∈ g, isDigit c) ∧ decimalValue g ≤ 255

instance (g : List Nat) : Decidable (isGroup g) := by unfold isGroup; infer_instance

/-- The group has no superfluous leading zero: it is a single digit or does not
start with `0`. -/
def noLeadingZero (g : List Nat) : Prop := g.length = 1 ∨ g.head? ≠ some 48

instance (g : List Nat) : Decidable (noLeadingZero g) := by unfold noLeadingZero; infer_instance

/-- The text starts with the address `g1.g2.g3.g4` as the greedy grammar reads
it: four groups separated by dots, the last of which has three digits or is
followed by an octet that is not a digit. -/
def greedyAddress (text : Nat → Nat) (g1 g2 g3 g4 : List Nat) : Prop :=
  isGroup g1 ∧ isGroup g2 ∧ isGroup g3 ∧ isGroup g4 ∧
  textBytes text (joinDots [g1, g2, g3, g4]).length = joinDots [g1, g2, g3, g4] ∧
  (g4.length = 3 ∨ ¬ isDigit (text (joinDots [g1, g2, g3, g4]).length % 256))

instance (text : Nat → Nat) (g1 g2 g3 g4 : List Nat) :
    Decidable (greedyAddress text g1 g2 g3 g4) := by
  unfold greedyAddress; infer_instance

/-- The groups of a text between its dots. -/
def splitDots : List Nat → List (List Nat)
  | [] => [[]]
  | c :: cs =>
    if c = 46 then [] :: splitDots cs
    else match splitDots cs with
      | [] => [[c]]
      | g :: gs => (c :: g) :: gs

/-- The text is exactly four dot-separated groups of one to three decimal digits
each, of value at most 255. -/
def isAddressText (s : List Nat) : Prop :=
  (splitDots s).length = 4 ∧ ∀ g ∈ splitDots s, isGroup g

instance (s : List Nat) : Decidable (isAddressText s) := by unfold isAddressText; infer_instance

/-- The shortest decimal rendering of a number, as ASCII octets. -/
def decimal (a : Nat) : List Nat := (Nat.toDigits 10 a).map Char.toNat

/-- An octet memory all of whose cells hold zero. -/
def zeros : Nat → Nat := fun _ => 0

/-- The cell holds an octet that ends an address: neither a decimal digit nor
a dot. -/
def isDelimiter (c : Nat) : Prop := ¬ isDigit (c % 256) ∧ c % 256 ≠ 46

instance (c : Nat) : Decidable (isDelimiter c) := by unfold isDelimiter; infer_instance

/-- The length of the run of decimal digits that starts at `pos`, capped at
three. -/
def runLen (text : Nat → Nat) (pos : Nat) : Nat :=
  if ¬ isDigit (text pos % 256) then 0
  else if ¬ isDigit (text (pos + 1) % 256) then 1
  else if ¬ isDigit (text (pos + 2) % 256) then 2
  else 3

/-- The decimal value of the run of digits that starts at `pos`, capped at three
digits. -/
def runVal (text : Nat → Nat) (pos : Nat) : Nat :=
  decimalValue (slice text pos (runLen text pos))

/-- The loop of `parse_ip4` once more, with the difference `p - ps` taken in
`Int`, as the `ptrdiff_t` of the source, and with the index into the table `m`
checked against the four entries of the table. The outer `none` means that the
fuel ran out, `some none` that `m` was indexed outside its entries. -/
def parse_ip4_loop_checked (data : Nat → Nat) (os : Nat) :
    Nat → parse_state → Option (Option (loop_exit × parse_state))
  | 0, _ => none
  | fuel + 1, s =>
    let d := (data s.p % 256 + (2 ^ 64 - 48)) % 2 ^ 64
    let rd := s.reads ++ [s.p]
    let len : Int := (s.p : Int) - (s.ps : Int)
    if d ≤ 9 then
      parse_ip4_loop_checked data os fuel
        { s with n := (s.n * 10 + d % 256) % 2 ^ 64, p := s.p + 1, reads := rd }
    else if len = 0 then
      some (some (.returned, { s with reads := rd }))
    else if len > 3 then
      some (some (.returned, { s with reads := rd }))
    else if len < 0 ∨ (m.length : Int) ≤ len then
      some none
    else
      let lk := s.lookups ++ [len.toNat]
      if s.n < m.getD len.toNat 0 then
        some (some (.returned, { s with reads := rd, lookups := lk }))
      else if s.n > 255 then
        some (some (.returned, { s with reads := rd, lookups := lk }))
      else if s.o - os > 3 then
        some (some (.returned, { s with reads := rd, lookups := lk }))
      else
        let mem := Function.update s.mem s.o (s.n % 256)
        let rd := rd ++ [s.p]
        if data s.p % 256 ≠ 46 then
          some (some (.broke, { o := s.o + 1, n := s.n, p := s.p, ps := s.p + 1, mem := mem,
                                reads := rd, lookups := lk }))
        else
          parse_ip4_loop_checked data os fuel
            { o := s.o + 1, n := 0, p := s.p + 1, ps := s.p + 1, mem := mem,
              reads := rd, lookups := lk }

/-- The octets of the text from `i` on include a run of `len` decimal digits. -/
def digitRunAt (text : Nat → Nat) (i len : Nat) : Prop :=
  ∀ j, j < len → isDigit (text (i + j) % 256)

instance (text : Nat → Nat) (i len : Nat) : Decidable (digitRunAt text i len) := by
  unfold digitRunAt; infer_instance

/-- The text never lets the loop of `parse_ip4` go: it consists of at most four
groups without superfluous leading zero, each followed by a dot, and then of
decimal digits without end. -/
def endlessDigits (data : Nat → Nat) : Prop :=
  ∃ gs : List (List Nat), gs.length ≤ 4 ∧ (∀ g ∈ gs, isGroup g ∧ noLeadingZero g) ∧
    slice data 0 (dotted gs).length = dotted gs ∧
    ∀ i, (dotted gs).length ≤ i → isDigit (data i % 256)

/-! ## Lemmas on the vocabulary -/

theorem slice_length (text : Nat → Nat) (pos len : Nat) : (slice text pos len).length = len := by
  induction len generalizing pos with
  | zero => rfl
  | succ len ih => simp [slice, ih]

theorem slice_add (text : Nat → Nat) (pos a b : Nat) :
    slice text pos (a + b) = slice text pos a ++ slice text (pos + a) b := by
  induction a generalizing pos with
  | zero => simp [slice]
  | succ a ih =>
    have : a + 1 + b = (a + b) + 1 := by omega
    rw [this]
    simp only [slice, ih, List.cons_append]
    have : pos + 1 + a = pos + (a + 1) := by omega
    rw [this]

theorem slice_succ_right (text : Nat → Nat) (pos len : Nat) :
    slice text pos (len + 1) = slice text pos len ++ [text (pos + len) % 256] := by
  rw [slice_add]; rfl

theorem slice_mem (text : Nat → Nat) (pos len c : Nat) (h : c ∈ slice text pos len) :
    ∃ j, j < len ∧ c = text (pos + j) % 256 := by
  induction len generalizing pos with
  | zero => simp [slice] at h
  | succ len ih =>
    simp only [slice, List.mem_cons] at h
    rcases h with h | h
    · exact ⟨0, by omega, by simpa using h⟩
    · obtain ⟨j, hj, hc⟩ := ih (pos + 1) h
      exact ⟨j + 1, by omega, by rw [hc]; congr 2; omega⟩

/-- A text starts with `a ++ b` exactly when it starts with `a` and goes on with
`b`. -/
theorem slice_eq_append (text : Nat → Nat) (pos : Nat) (a b : List Nat) :
    slice text pos (a ++ b).length = a ++ b ↔
      slice text pos a.length = a ∧ slice text (pos + a.length) b.length = b := by
  rw [List.length_append, slice_add]
  constructor
  · intro h
    exact List.append_inj h (by rw [slice_length])
  · rintro ⟨h1, h2⟩
    rw [h1, h2]

theorem slice_eq_cons (text : Nat → Nat) (pos c : Nat) (l : List Nat) :
    slice text pos (c :: l).length = c :: l ↔
      text pos % 256 = c ∧ slice text (pos + 1) l.length = l := by
  simp [slice]

theorem cells_length (mem : Nat → Nat) (pos len : Nat) : (cells mem pos len).length = len := by
  induction len generalizing pos with
  | zero => rfl
  | succ len ih => simp [cells, ih]

theorem cells_succ_right (mem : Nat → Nat) (pos len : Nat) :
    cells mem pos (len + 1) = cells mem pos len ++ [mem (pos + len)] := by
  induction len generalizing pos with
  | zero => simp [cells]
  | succ len ih =>
    rw [cells, ih (pos + 1)]
    simp only [cells, List.cons_append]
    have : pos + 1 + len = pos + (len + 1) := by omega
    rw [this]

theorem cells_congr (mem mem' : Nat → Nat) (pos len : Nat)
    (h : ∀ i, pos ≤ i → i < pos + len → mem' i = mem i) :
    cells mem' pos len = cells mem pos len := by
  induction len generalizing pos with
  | zero => rfl
  | succ len ih =>
    simp only [cells]
    rw [h pos (by omega) (by omega), ih (pos + 1) (fun i h1 h2 => h i (by omega) (by omega))]

theorem joinDots_cons (g g' : List Nat) (gs : List (List Nat)) :
    joinDots (g :: g' :: gs) = g ++ 46 :: joinDots (g' :: gs) := rfl

theorem joinDots_snoc (gs : List (List Nat)) (g : List Nat) :
    joinDots (gs ++ [g]) = dotted gs ++ g := by
  induction gs with
  | nil => rfl
  | cons g0 gs ih =>
    cases gs with
    | nil => simp [joinDots, dotted]
    | cons g1 gs =>
      simp only [List.cons_append] at ih ⊢
      rw [joinDots_cons, ih]
      simp [dotted]

theorem dotted_snoc (gs : List (List Nat)) (g : List Nat) :
    dotted (gs ++ [g]) = dotted gs ++ g ++ [46] := by
  induction gs with
  | nil => simp [dotted]
  | cons g0 gs ih => simp [dotted, ih]

theorem decimalValue_snoc (g : List Nat) (c : Nat) :
    decimalValue (g ++ [c]) = decimalValue g * 10 + (c - 48) := by
  simp [decimalValue, List.foldl_append]

/-- Up to three decimal digits have a value below 1000. -/
theorem decimalValue_lt (g : List Nat) (hl : g.length ≤ 3) (hd : ∀ c ∈ g, isDigit c) :
    decimalValue g < 1000 := by
  unfold isDigit at hd
  match g, hl, hd with
  | [], _, _ => simp [decimalValue]
  | [a], _, hd =>
    have := hd a (by simp)
    simp only [decimalValue, List.foldl_cons, List.foldl_nil]; omega
  | [a, b], _, hd =>
    have := hd a (by simp)
    have := hd b (by simp)
    simp only [decimalValue, List.foldl_cons, List.foldl_nil]; omega
  | [a, b, c], _, hd =>
    have := hd a (by simp)
    have := hd b (by simp)
    have := hd c (by simp)
    simp only [decimalValue, List.foldl_cons, List.foldl_nil]; omega
  | _ :: _ :: _ :: _ :: _, hl, _ => simp at hl

/-! ## Lemmas on the loop of `scan_ip4` -/

theorem digit_gt_nine (c : Nat) :
    (c % 256 + (256 - 48)) % 256 > 9 ↔ ¬ isDigit (c % 256) := by
  unfold isDigit; omega

theorem digit_val (c : Nat) (h : isDigit (c % 256)) :
    (c % 256 + (256 - 48)) % 256 = c % 256 - 48 := by
  unfold isDigit at h; omega

theorem runLen_le (text : Nat → Nat) (pos : Nat) : runLen text pos ≤ 3 := by
  unfold runLen; split_ifs <;> omega

/-- One round of the loop of `scan_ip4`, in terms of the run of digits under the
pointer. -/
theorem scan_ip4_loop_succ (text : Nat → Nat) (fuel : Nat) (s : scan_state) :
    scan_ip4_loop text (fuel + 1) s =
      if runLen text s.text = 0 then
        some (.returned, { s with reads := s.reads ++ [s.text, s.text + 1, s.text + 2] })
      else if runVal text s.text > 255 then
        some (.returned, { s with text := s.text + runLen text s.text,
                                  reads := s.reads ++ [s.text, s.text + 1, s.text + 2] })
      else if text (s.text + runLen text s.text) % 256 ≠ 46 ∨ s.round + 1 = 4 then
        some (.broke, { text := s.text + runLen text s.text, round := s.round + 1,
                        wire := Function.update s.wire s.round (runVal text s.text % 256),
                        reads := s.reads ++ [s.text, s.text + 1, s.text + 2] ++
                          [s.text + runLen text s.text] })
      else
        scan_ip4_loop text fuel
          { text := s.text + runLen text s.text + 1, round := s.round + 1,
            wire := Function.update s.wire s.round (runVal text s.text % 256),
            reads := s.reads ++ [s.text, s.text + 1, s.text + 2] ++
              [s.text + runLen text s.text] } := by
  simp only [scan_ip4_loop, digit_gt_nine]
  by_cases c0 : isDigit (text s.text % 256)
  · by_cases c1 : isDigit (text (s.text + 1) % 256)
    · by_cases c2 : isDigit (text (s.text + 2) % 256)
      · have hl : runLen text s.text = 3 := by simp [runLen, c0, c1, c2]
        have hv : runVal text s.text = (text s.text % 256 - 48) * 100
            + (text (s.text + 1) % 256 - 48) * 10 + (text (s.text + 2) % 256 - 48) := by
          simp only [runVal, hl, slice, decimalValue, List.foldl_cons, List.foldl_nil, Nat.add_assoc,
            Nat.reduceAdd]
          omega
        rw [hl, hv, digit_val _ c0, digit_val _ c1, digit_val _ c2]
        simp [c0, c1, c2]
      · have hl : runLen text s.text = 2 := by simp [runLen, c0, c1, c2]
        have hv : runVal text s.text = (text s.text % 256 - 48) * 10
            + (text (s.text + 1) % 256 - 48) := by
          simp only [runVal, hl, slice, decimalValue, List.foldl_cons, List.foldl_nil, Nat.add_assoc,
            Nat.reduceAdd]
          omega
        rw [hl, hv, digit_val _ c0, digit_val _ c1]
        simp [c0, c1, c2]
    · have hl : runLen text s.text = 1 := by simp [runLen, c0, c1]
      have hv : runVal text s.text = text s.text % 256 - 48 := by
        simp only [runVal, hl, slice, decimalValue, List.foldl_cons, List.foldl_nil, Nat.add_assoc,
            Nat.reduceAdd]
        omega
      rw [hl, hv, digit_val _ c0]
      simp [c0, c1]
  · simp [runLen, c0]

theorem runLen_digits (text : Nat → Nat) (pos j : Nat) (h : j < runLen text pos) :
    isDigit (text (pos + j) % 256) := by
  unfold runLen at h
  by_cases c0 : isDigit (text pos % 256)
  · by_cases c1 : isDigit (text (pos + 1) % 256)
    · by_cases c2 : isDigit (text (pos + 2) % 256)
      · simp only [c0, c1, c2, not_true_eq_false, if_false] at h
        have : j = 0 ∨ j = 1 ∨ j = 2 := by omega
        rcases this with rfl | rfl | rfl
        · simpa using c0
        · simpa using c1
        · simpa using c2
      · simp only [c0, c1, c2, not_true_eq_false, not_false_eq_true, if_false, if_true] at h
        have : j = 0 ∨ j = 1 := by omega
        rcases this with rfl | rfl
        · simpa using c0
        · simpa using c1
    · simp only [c0, c1, not_true_eq_false, not_false_eq_true, if_false, if_true] at h
      have : j = 0 := by omega
      subst this; simpa using c0
  · simp only [c0, not_false_eq_true, if_true] at h
    omega

theorem runLen_le_delimiter (text : Nat → Nat) (pos k : Nat) (hk : isDelimiter (text k))
    (h : pos ≤ k) : pos + runLen text pos ≤ k := by
  by_contra hc
  have hd := runLen_digits text pos (k - pos) (by omega)
  have : pos + (k - pos) = k := by omega
  rw [this] at hd
  exact hk.1 hd

theorem dot_lt_delimiter (text : Nat → Nat) (pos k : Nat) (hk : isDelimiter (text k))
    (h : pos ≤ k) (hd : text pos % 256 = 46) : pos + 1 ≤ k := by
  rcases Nat.lt_or_ge pos k with h1 | h1
  · omega
  · have : pos = k := by omega
    subst this
    exact absurd hd hk.2

theorem slice_digits (text : Nat → Nat) (pos : Nat) (g : List Nat)
    (hs : slice text pos g.length = g) (hd : ∀ c ∈ g, isDigit c) (j : Nat) (hj : j < g.length) :
    isDigit (text (pos + j) % 256) := by
  induction g generalizing pos j with
  | nil => simp at hj
  | cons c g ih =>
    rw [slice_eq_cons] at hs
    cases j with
    | zero =>
      rw [Nat.add_zero, hs.1]
      exact hd c (by simp)
    | succ j =>
      have := ih (pos + 1) hs.2 (fun c hc => hd c (by simp [hc])) j (by simpa using hj)
      have e : pos + (j + 1) = pos + 1 + j := by omega
      rw [e]; exact this

theorem runLen_maximal (text : Nat → Nat) (pos : Nat) :
    runLen text pos = 3 ∨ ¬ isDigit (text (pos + runLen text pos) % 256) := by
  unfold runLen
  by_cases c0 : isDigit (text pos % 256)
  · by_cases c1 : isDigit (text (pos + 1) % 256)
    · by_cases c2 : isDigit (text (pos + 2) % 256)
      · simp [c0, c1, c2]
      · simp [c0, c1, c2]
    · simp [c0, c1]
  · simp [c0]

/-- A group that lies at `pos` and is followed by a non-digit, or has three
digits, is the run of digits found there. -/
theorem run_of_group (text : Nat → Nat) (pos : Nat) (g : List Nat) (hg : isGroup g)
    (hs : slice text pos g.length = g)
    (hm : g.length = 3 ∨ ¬ isDigit (text (pos + g.length) % 256)) :
    runLen text pos = g.length ∧ runVal text pos = decimalValue g := by
  obtain ⟨h1, h3, hd, -⟩ := hg
  have hdig := slice_digits text pos g hs hd
  have hl : runLen text pos = g.length := by
    have d0 : isDigit (text pos % 256) := by simpa using hdig 0 (by omega)
    unfold runLen
    by_cases e1 : g.length = 1
    · have n1 : ¬ isDigit (text (pos + 1) % 256) := by
        rcases hm with hm | hm
        · omega
        · rwa [e1] at hm
      simp [d0, n1, e1]
    · have d1 : isDigit (text (pos + 1) % 256) := hdig 1 (by omega)
      by_cases e2 : g.length = 2
      · have n2 : ¬ isDigit (text (pos + 2) % 256) := by
          rcases hm with hm | hm
          · omega
          · rwa [e2] at hm
        simp [d0, d1, n2, e2]
      · have d2 : isDigit (text (pos + 2) % 256) := hdig 2 (by omega)
        have e3 : g.length = 3 := by omega
        simp [d0, d1, d2, e3]
  exact ⟨hl, by rw [runVal, hl, hs]⟩

/-- The run of digits found at `pos`, when not empty and of value at most 255,
is a group. -/
theorem group_of_run (text : Nat → Nat) (pos : Nat) (h0 : runLen text pos ≠ 0)
    (hv : runVal text pos ≤ 255) : isGroup (slice text pos (runLen text pos)) := by
  refine ⟨by rw [slice_length]; omega, by rw [slice_length]; exact runLen_le text pos, ?_, hv⟩
  intro c hc
  obtain ⟨j, hj, rfl⟩ := slice_mem text pos _ c hc
  exact runLen_digits text pos j hj

/-- The loop of `scan_ip4` started in a round below four ends within the rounds
that are left and stores only below `wire[4]`. -/
theorem scan_ip4_loop_total (text : Nat → Nat) :
    ∀ (fuel : Nat) (s : scan_state), s.round < 4 → 4 - s.round ≤ fuel →
      ∃ e s', scan_ip4_loop text fuel s = some (e, s') ∧ s'.round ≤ 4 ∧
        (∀ i, 4 ≤ i → s'.wire i = s.wire i) := by
  intro fuel
  induction fuel with
  | zero => intro s h1 h2; omega
  | succ fuel ih =>
    intro s h1 h2
    have hw : ∀ v i, 4 ≤ i → Function.update s.wire s.round v i = s.wire i := by
      intro v i hi
      exact Function.update_noteq (by omega) _ _
    rw [scan_ip4_loop_succ]
    split_ifs with c0 c1 c2
    · exact ⟨_, _, rfl, by simp; omega, by simp⟩
    · exact ⟨_, _, rfl, by simp; omega, by simp⟩
    · exact ⟨_, _, rfl, by simp; omega, hw _⟩
    · have hround : s.round + 1 < 4 := by
        have : ¬ (s.round + 1 = 4) := fun h => c2 (Or.inr h)
        omega
      obtain ⟨e, s', he, h4, h6⟩ := ih
        { text := s.text + runLen text s.text + 1, round := s.round + 1,
          wire := Function.update s.wire s.round (runVal text s.text % 256),
          reads := s.reads ++ [s.text, s.text + 1, s.text + 2] ++
            [s.text + runLen text s.text] } hround (by simp; omega)
      refine ⟨e, s', he, h4, ?_⟩
      intro i hi
      rw [h6 i hi]
      exact hw _ i hi

/-- The loop of `scan_ip4` stays on the text up to its first delimiter and
loads at most two octets beyond it. -/
theorem scan_ip4_loop_reads (text : Nat → Nat) (k : Nat) (hk : isDelimiter (text k)) :
    ∀ (fuel : Nat) (s : scan_state) (e : loop_exit) (s' : scan_state),
      scan_ip4_loop text fuel s = some (e, s') → s.text ≤ k →
        s'.text ≤ k ∧ (∀ i ∈ s'.reads, i ∈ s.reads ∨ i ≤ k + 2) := by
  intro fuel
  induction fuel with
  | zero => intro s e s' h; simp [scan_ip4_loop] at h
  | succ fuel ih =>
    intro s e s' h h3
    have hr := runLen_le_delimiter text s.text k hk h3
    have hmem : ∀ i ∈ s.reads ++ [s.text, s.text + 1, s.text + 2], i ∈ s.reads ∨ i ≤ k + 2 := by
      intro i hi
      simp only [List.mem_append, List.mem_cons, List.mem_singleton, List.not_mem_nil,
        or_false] at hi
      rcases hi with hi | hi | hi | hi
      · exact Or.inl hi
      all_goals right; omega
    have hmem2 : ∀ i ∈ s.reads ++ [s.text, s.text + 1, s.text + 2] ++
        [s.text + runLen text s.text], i ∈ s.reads ∨ i ≤ k + 2 := by
      intro i hi
      rw [List.mem_append] at hi
      rcases hi with hi | hi
      · exact hmem i hi
      · simp only [List.mem_singleton] at hi
        right; omega
    rw [scan_ip4_loop_succ] at h
    split_ifs at h with c0 c1 c2
    · simp only [Option.some.injEq, Prod.mk.injEq] at h
      obtain ⟨-, rfl⟩ := h
      exact ⟨h3, hmem⟩
    · simp only [Option.some.injEq, Prod.mk.injEq] at h
      obtain ⟨-, rfl⟩ := h
      exact ⟨hr, hmem⟩
    · simp only [Option.some.injEq, Prod.mk.injEq] at h
      obtain ⟨-, rfl⟩ := h
      exact ⟨hr, hmem2⟩
    · have hdot : text (s.text + runLen text s.text) % 256 = 46 := by
        by_contra hne
        exact c2 (Or.inl hne)
      have hlt := dot_lt_delimiter text _ k hk hr hdot
      obtain ⟨h5, h7⟩ := ih _ e s' h hlt
      refine ⟨h5, ?_⟩
      intro i hi
      rcases h7 i hi with h | h
      · exact hmem2 i h
      · exact Or.inr h

/-- `scan_ip4` returns within four rounds on every text, and stores only in
`wire[0..3]`. -/
theorem scan_ip4_total (fuel : Nat) (hf : 4 ≤ fuel) (text wire : Nat → Nat) (length : Nat) :
    ∃ r, scan_ip4 fuel text wire length = some r ∧ r.round ≤ 4 ∧
      (r.code = 4 ∨ r.code = -1) ∧ (∀ i, 4 ≤ i → r.wire i = wire i) := by
  obtain ⟨e, s', he, h1, h2⟩ := scan_ip4_loop_total text fuel
    { text := 0, round := 0, wire := wire, reads := [] } (by simp) (by simpa using hf)
  unfold scan_ip4
  rw [he]
  cases e with
  | returned => exact ⟨_, rfl, h1, Or.inr rfl, h2⟩
  | broke =>
    by_cases h4 : s'.round = 4
    · simp only [h4, ne_eq, not_true_eq_false, if_false]
      exact ⟨_, rfl, by simp, Or.inl rfl, h2⟩
    · simp only [h4, ne_eq, not_false_eq_true, if_true]
      exact ⟨_, rfl, h1, Or.inr rfl, h2⟩

/-- On groups `gs` each followed by a dot and a last group `g` that is maximal,
the loop of `scan_ip4` breaks in round four behind `g`, having stored the
values of the groups. -/
theorem scan_ip4_loop_accepts (text : Nat → Nat) :
    ∀ (gs : List (List Nat)) (g : List Nat) (fuel : Nat) (s : scan_state),
      s.round + gs.length + 1 = 4 → gs.length + 1 ≤ fuel →
      (∀ x ∈ gs, isGroup x) → isGroup g →
      slice text s.text (dotted gs ++ g).length = dotted gs ++ g →
      (g.length = 3 ∨ ¬ isDigit (text (s.text + (dotted gs ++ g).length) % 256)) →
      ∃ s', scan_ip4_loop text fuel s = some (.broke, s') ∧ s'.round = 4 ∧
        s'.text = s.text + (dotted gs ++ g).length ∧
        cells s'.wire s.round (gs.length + 1) = gs.map decimalValue ++ [decimalValue g] ∧
        (∀ j, j < s.round → s'.wire j = s.wire j) := by
  intro gs
  induction gs with
  | nil =>
    intro g fuel s hr hf _ hg hs hm
    obtain ⟨fuel, rfl⟩ : ∃ f, fuel = f + 1 := ⟨fuel - 1, by simp at hf; omega⟩
    simp only [dotted, List.nil_append] at hs hm ⊢
    obtain ⟨hl, hv⟩ := run_of_group text s.text g hg hs hm
    have h1 : ¬ (g.length = 0) := by have := hg.1; omega
    have h2 : ¬ (decimalValue g > 255) := by have := hg.2.2.2; omega
    have h3 : s.round + 1 = 4 := by simpa using hr
    rw [scan_ip4_loop_succ, hl, hv]
    simp only [h1, h2, h3, if_false, or_true, if_true]
    refine ⟨_, rfl, rfl, rfl, ?_, ?_⟩
    · have : decimalValue g % 256 = decimalValue g := by omega
      simp [cells, this]
    · intro j hj
      exact Function.update_noteq (by omega) _ _
  | cons g0 gs ih =>
    intro g fuel s hr hf hgs hg hs hm
    obtain ⟨fuel, rfl⟩ : ∃ f, fuel = f + 1 := ⟨fuel - 1, by simp at hf; omega⟩
    have e : dotted (g0 :: gs) ++ g = g0 ++ 46 :: (dotted gs ++ g) := by simp [dotted]
    rw [e] at hs hm
    rw [e]
    obtain ⟨hs0, hs1⟩ := (slice_eq_append text s.text g0 _).1 hs
    obtain ⟨hdot, hs2⟩ := (slice_eq_cons text _ 46 _).1 hs1
    have hg0 : isGroup g0 := hgs g0 (by simp)
    have hnd : ¬ isDigit (text (s.text + g0.length) % 256) := by
      rw [hdot]; unfold isDigit; omega
    obtain ⟨hl, hv⟩ := run_of_group text s.text g0 hg0 hs0 (Or.inr hnd)
    have h1 : ¬ (g0.length = 0) := by have := hg0.1; omega
    have h2 : ¬ (decimalValue g0 > 255) := by have := hg0.2.2.2; omega
    have h3 : ¬ (s.round + 1 = 4) := by simp at hr; omega
    rw [scan_ip4_loop_succ, hl, hv]
    simp only [h1, h2, h3, hdot, if_false, or_false, ne_eq, not_true_eq_false]
    have hlen : (g0 ++ 46 :: (dotted gs ++ g)).length
        = g0.length + 1 + (dotted gs ++ g).length := by
      simp; omega
    obtain ⟨s', he, hr', ht', hc', hw'⟩ := ih g fuel
      { text := s.text + g0.length + 1, round := s.round + 1,
        wire := Function.update s.wire s.round (decimalValue g0 % 256),
        reads := s.reads ++ [s.text, s.text + 1, s.text + 2] ++ [s.text + g0.length] }
      (by simp at hr ⊢; omega) (by simp at hf ⊢; omega)
      (fun x hx => hgs x (by simp [hx])) hg hs2
      (by
        rcases hm with hm | hm
        · exact Or.inl hm
        · right
          rw [hlen] at hm
          have e2 : s.text + (g0.length + 1 + (dotted gs ++ g).length)
              = s.text + g0.length + 1 + (dotted gs ++ g).length := by omega
          rw [e2] at hm
          exact hm)
    refine ⟨s', he, hr', ?_, ?_, ?_⟩
    · rw [ht', hlen]
      simp only []
      omega
    · have hw0 : s'.wire s.round = decimalValue g0 := by
        rw [hw' s.round (by simp)]
        have : decimalValue g0 % 256 = decimalValue g0 := by omega
        simp [this]
      simp only [] at hc'
      rw [List.length_cons, cells, hw0, hc']
      rfl
    · intro j hj
      rw [hw' j (by simp; omega)]
      exact Function.update_noteq (by omega) _ _

/-- When the loop of `scan_ip4` breaks in round four, the text consists of
groups each followed by a dot and of a last, maximal group. -/
theorem scan_ip4_loop_accepted (text : Nat → Nat) :
    ∀ (fuel : Nat) (s s' : scan_state),
      scan_ip4_loop text fuel s = some (.broke, s') → s'.round = 4 → s.round < 4 →
      ∃ (gs : List (List Nat)) (g : List Nat), s.round + gs.length + 1 = 4 ∧
        (∀ x ∈ gs, isGroup x) ∧ isGroup g ∧
        slice text s.text (dotted gs ++ g).length = dotted gs ++ g ∧
        (g.length = 3 ∨ ¬ isDigit (text (s.text + (dotted gs ++ g).length) % 256)) := by
  intro fuel
  induction fuel with
  | zero => intro s s' h; simp [scan_ip4_loop] at h
  | succ fuel ih =>
    intro s s' h h4 hlt
    rw [scan_ip4_loop_succ] at h
    split_ifs at h with c0 c1 c2
    · simp at h
    · simp at h
    · simp only [Option.some.injEq, Prod.mk.injEq, true_and] at h
      subst h
      simp only [] at h4
      refine ⟨[], slice text s.text (runLen text s.text), by simp; omega, by simp,
        group_of_run text s.text c0 (by omega), ?_, ?_⟩
      · simp [dotted, slice_length]
      · simp only [dotted, List.nil_append, slice_length]
        exact runLen_maximal text s.text
    · have hdot : text (s.text + runLen text s.text) % 256 = 46 := by
        by_contra hne
        exact c2 (Or.inl hne)
      have hround : s.round + 1 < 4 := by
        have : ¬ (s.round + 1 = 4) := fun h => c2 (Or.inr h)
        omega
      obtain ⟨gs, g, hr, hgs, hg, hs, hm⟩ := ih _ s' h h4 hround
      simp only [] at hr hs hm
      have e : dotted (slice text s.text (runLen text s.text) :: gs) ++ g
          = slice text s.text (runLen text s.text) ++ 46 :: (dotted gs ++ g) := by
        simp [dotted]
      have hlen : (slice text s.text (runLen text s.text) ++ 46 :: (dotted gs ++ g)).length
          = runLen text s.text + 1 + (dotted gs ++ g).length := by
        simp [slice_length]; omega
      refine ⟨slice text s.text (runLen text s.text) :: gs, g, by simp; omega, ?_, hg, ?_, ?_⟩
      · intro x hx
        rcases List.mem_cons.1 hx with rfl | hx
        · exact group_of_run text s.text c0 (by omega)
        · exact hgs x hx
      · rw [e, slice_eq_append, slice_length]
        refine ⟨rfl, ?_⟩
        rw [slice_eq_cons]
        exact ⟨hdot, hs⟩
      · rw [e, hlen]
        have e2 : s.text + (runLen text s.text + 1 + (dotted gs ++ g).length)
            = s.text + runLen text s.text + 1 + (dotted gs ++ g).length := by omega
        rw [e2]
        exact hm

theorem joinDots_four (g1 g2 g3 g4 : List Nat) :
    joinDots [g1, g2, g3, g4] = dotted [g1, g2, g3] ++ g4 := by
  simp [joinDots, dotted]

theorem joinDots_four_length (g1 g2 g3 g4 : List Nat) :
    (joinDots [g1, g2, g3, g4]).length = g1.length + g2.length + g3.length + g4.length + 3 := by
  simp [joinDots]; omega

/-- On a text that starts with a greedy address `scan_ip4` returns 4, stores the
values of the groups and sets `*length` to the length of the address. -/
theorem scan_ip4_of_greedy (fuel : Nat) (hf : 4 ≤ fuel) (text wire : Nat → Nat) (length : Nat)
    (g1 g2 g3 g4 : List Nat) (h : greedyAddress text g1 g2 g3 g4) :
    ∃ r, scan_ip4 fuel text wire length = some r ∧ r.code = 4 ∧
      cells r.wire 0 4 = [decimalValue g1, decimalValue g2, decimalValue g3, decimalValue g4] ∧
      r.length = (joinDots [g1, g2, g3, g4]).length ∧
      (∀ i, 4 ≤ i → r.wire i = wire i) := by
  obtain ⟨h1, h2, h3, h4, hs, hm⟩ := h
  rw [joinDots_four] at hs hm
  obtain ⟨s', he, hr, ht, hc, -⟩ := scan_ip4_loop_accepts text [g1, g2, g3] g4 fuel
    { text := 0, round := 0, wire := wire, reads := [] } (by simp) (by simpa using hf)
    (by
      intro x hx
      simp only [List.mem_cons, List.mem_singleton, List.not_mem_nil, or_false] at hx
      rcases hx with rfl | rfl | rfl
      · exact h1
      · exact h2
      · exact h3)
    h4 hs (by simpa using hm)
  obtain ⟨e', s'', he', -, hfr⟩ := scan_ip4_loop_total text fuel
    { text := 0, round := 0, wire := wire, reads := [] } (by simp) (by simpa using hf)
  rw [he] at he'
  simp only [Option.some.injEq, Prod.mk.injEq] at he'
  obtain ⟨-, rfl⟩ := he'
  unfold scan_ip4
  rw [he]
  simp only [hr, ne_eq, not_true_eq_false, if_false]
  refine ⟨_, rfl, rfl, by simpa using hc, ?_, hfr⟩
  rw [joinDots_four]
  simpa using ht

/-- When `scan_ip4` returns 4 the text starts with a greedy address. -/
theorem scan_ip4_greedy_of_accept (fuel : Nat) (text wire : Nat → Nat) (length : Nat)
    (r : scan_result) (h : scan_ip4 fuel text wire length = some r) (hc : r.code = 4) :
    ∃ g1 g2 g3 g4, greedyAddress text g1 g2 g3 g4 := by
  unfold scan_ip4 at h
  split at h
  · simp at h
  · simp only [Option.some.injEq] at h
    subst h
    simp at hc
  · rename_i s he
    split_ifs at h with h4
    · simp only [Option.some.injEq] at h
      subst h
      simp at hc
    · have h4 : s.round = 4 := by simpa using h4
      obtain ⟨gs, g, hr, hgs, hg, hs, hm⟩ :=
        scan_ip4_loop_accepted text fuel _ s he h4 (by simp)
      simp only [] at hr hs hm
      match gs, hr, hgs, hs, hm with
      | [a, b, c], _, hgs, hs, hm =>
        refine ⟨a, b, c, g, hgs a (by simp), hgs b (by simp), hgs c (by simp), hg, ?_, ?_⟩
        · rw [joinDots_four]; exact hs
        · rw [joinDots_four]; simpa using hm

/-! ## Lemmas on the loop of `parse_ip4` -/

theorem parse_digit_le_nine (c : Nat) :
    (c % 256 + (2 ^ 64 - 48)) % 2 ^ 64 ≤ 9 ↔ isDigit (c % 256) := by
  unfold isDigit; omega

theorem parse_digit_val (c : Nat) (h : isDigit (c % 256)) :
    (c % 256 + (2 ^ 64 - 48)) % 2 ^ 64 % 256 = c % 256 - 48 := by
  unfold isDigit at h; omega

/-- One round of the loop of `parse_ip4` on a decimal digit. -/
theorem parse_ip4_loop_digit (data : Nat → Nat) (os fuel : Nat) (s : parse_state)
    (h : isDigit (data s.p % 256)) :
    parse_ip4_loop data os (fuel + 1) s =
      parse_ip4_loop data os fuel
        { s with n := (s.n * 10 + (data s.p % 256 - 48)) % 2 ^ 64, p := s.p + 1,
                 reads := s.reads ++ [s.p] } := by
  rw [parse_ip4_loop]
  simp only [parse_digit_le_nine, h, if_true, parse_digit_val _ h]

/-- One round of the loop of `parse_ip4` on an octet that is not a digit. -/
theorem parse_ip4_loop_other (data : Nat → Nat) (os fuel : Nat) (s : parse_state)
    (h : ¬ isDigit (data s.p % 256)) :
    parse_ip4_loop data os (fuel + 1) s =
      if s.p - s.ps = 0 then some (.returned, { s with reads := s.reads ++ [s.p] })
      else if s.p - s.ps > 3 then some (.returned, { s with reads := s.reads ++ [s.p] })
      else if s.n < m.getD (s.p - s.ps) 0 then
        some (.returned, { s with reads := s.reads ++ [s.p],
                                  lookups := s.lookups ++ [s.p - s.ps] })
      else if s.n > 255 then
        some (.returned, { s with reads := s.reads ++ [s.p],
                                  lookups := s.lookups ++ [s.p - s.ps] })
      else if s.o - os > 3 then
        some (.returned, { s with reads := s.reads ++ [s.p],
                                  lookups := s.lookups ++ [s.p - s.ps] })
      else if data s.p % 256 ≠ 46 then
        some (.broke, { o := s.o + 1, n := s.n, p := s.p, ps := s.p + 1,
                        mem := Function.update s.mem s.o (s.n % 256),
                        reads := s.reads ++ [s.p] ++ [s.p],
                        lookups := s.lookups ++ [s.p - s.ps] })
      else
        parse_ip4_loop data os fuel
          { o := s.o + 1, n := 0, p := s.p + 1, ps := s.p + 1,
            mem := Function.update s.mem s.o (s.n % 256),
            reads := s.reads ++ [s.p] ++ [s.p],
            lookups := s.lookups ++ [s.p - s.ps] } := by
  rw [parse_ip4_loop]
  simp only [parse_digit_le_nine, h, if_false]

/-- The loop of `parse_ip4` stores only in the four octets at the cursor. -/
theorem parse_ip4_loop_frame (data : Nat → Nat) (os : Nat) :
    ∀ (fuel : Nat) (s : parse_state) (e : loop_exit) (s' : parse_state),
      parse_ip4_loop data os fuel s = some (e, s') → os ≤ s.o →
        os ≤ s'.o ∧ ∀ i, (i < os ∨ os + 4 ≤ i) → s'.mem i = s.mem i := by
  intro fuel
  induction fuel with
  | zero => intro s e s' h; simp [parse_ip4_loop] at h
  | succ fuel ih =>
    intro s e s' h ho
    by_cases hd : isDigit (data s.p % 256)
    · rw [parse_ip4_loop_digit _ _ _ _ hd] at h
      obtain ⟨h1, h2⟩ := ih _ e s' h (by simpa using ho)
      exact ⟨h1, h2⟩
    · rw [parse_ip4_loop_other _ _ _ _ hd] at h
      split_ifs at h with c1 c2 c3 c4 c5 c6
      iterate 5
        simp only [Option.some.injEq, Prod.mk.injEq] at h
        obtain ⟨-, rfl⟩ := h
        exact ⟨ho, fun _ _ => rfl⟩
      · simp only [Option.some.injEq, Prod.mk.injEq] at h
        obtain ⟨-, rfl⟩ := h
        refine ⟨by simp; omega, ?_⟩
        intro i hi
        exact Function.update_noteq (by omega) _ _
      · obtain ⟨h1, h2⟩ := ih _ e s' h (by simp; omega)
        refine ⟨h1, ?_⟩
        intro i hi
        rw [h2 i hi]
        exact Function.update_noteq (by omega) _ _

/-- The loop of `parse_ip4` does not move past the first delimiter of the text
and loads no octet beyond it. -/
theorem parse_ip4_loop_reads (data : Nat → Nat) (os k : Nat) (hk : isDelimiter (data k)) :
    ∀ (fuel : Nat) (s : parse_state) (e : loop_exit) (s' : parse_state),
      parse_ip4_loop data os fuel s = some (e, s') → s.p ≤ k →
        s'.p ≤ k ∧ ∀ i ∈ s'.reads, i ∈ s.reads ∨ i ≤ k := by
  intro fuel
  induction fuel with
  | zero => intro s e s' h; simp [parse_ip4_loop] at h
  | succ fuel ih =>
    intro s e s' h hp
    have hmem : ∀ i ∈ s.reads ++ [s.p], i ∈ s.reads ∨ i ≤ k := by
      intro i hi
      rw [List.mem_append, List.mem_singleton] at hi
      rcases hi with hi | hi
      · exact Or.inl hi
      · right; omega
    have hmem2 : ∀ i ∈ s.reads ++ [s.p] ++ [s.p], i ∈ s.reads ∨ i ≤ k := by
      intro i hi
      rw [List.mem_append, List.mem_singleton] at hi
      rcases hi with hi | hi
      · exact hmem i hi
      · right; omega
    by_cases hd : isDigit (data s.p % 256)
    · rw [parse_ip4_loop_digit _ _ _ _ hd] at h
      have hlt : s.p + 1 ≤ k := by
        rcases Nat.lt_or_ge s.p k with h1 | h1
        · omega
        · have : s.p = k := by omega
          rw [this] at hd
          exact absurd hd hk.1
      obtain ⟨h1, h2⟩ := ih _ e s' h hlt
      refine ⟨h1, ?_⟩
      intro i hi
      rcases h2 i hi with h | h
      · exact hmem i h
      · exact Or.inr h
    · rw [parse_ip4_loop_other _ _ _ _ hd] at h
      split_ifs at h with c1 c2 c3 c4 c5 c6
      iterate 5
        simp only [Option.some.injEq, Prod.mk.injEq] at h
        obtain ⟨-, rfl⟩ := h
        exact ⟨hp, hmem⟩
      · simp only [Option.some.injEq, Prod.mk.injEq] at h
        obtain ⟨-, rfl⟩ := h
        exact ⟨hp, hmem2⟩
      · have hdot : data s.p % 256 = 46 := by
          by_contra hne
          exact c6 hne
        have hlt := dot_lt_delimiter data _ k hk hp hdot
        obtain ⟨h1, h2⟩ := ih _ e s' h hlt
        refine ⟨h1, ?_⟩
        intro i hi
        rcases h2 i hi with h | h
        · exact hmem2 i h
        · exact Or.inr h

/-- The loop of `parse_ip4` ends when the text has a delimiter and the fuel
reaches it. -/
theorem parse_ip4_loop_total (data : Nat → Nat) (os k : Nat) (hk : isDelimiter (data k)) :
    ∀ (fuel : Nat) (s : parse_state), s.p ≤ k → k - s.p < fuel →
      ∃ x, parse_ip4_loop data os fuel s = some x := by
  intro fuel
  induction fuel with
  | zero => intro s h1 h2; omega
  | succ fuel ih =>
    intro s hp hf
    by_cases hd : isDigit (data s.p % 256)
    · rw [parse_ip4_loop_digit _ _ _ _ hd]
      have hlt : s.p + 1 ≤ k := by
        rcases Nat.lt_or_ge s.p k with h1 | h1
        · omega
        · have : s.p = k := by omega
          rw [this] at hd
          exact absurd hd hk.1
      exact ih _ hlt (by simp; omega)
    · rw [parse_ip4_loop_other _ _ _ _ hd]
      split_ifs with c1 c2 c3 c4 c5 c6
      iterate 6 exact ⟨_, rfl⟩
      have hdot : data s.p % 256 = 46 := by
        by_contra hne
        exact c6 hne
      have hlt := dot_lt_delimiter data _ k hk hp hdot
      exact ih _ hlt (by simp; omega)

/-- For a group of one to three digits, the test against the table `m` is the
test for a superfluous leading zero. -/
theorem m_check (g : List Nat) (h1 : 1 ≤ g.length) (h3 : g.length ≤ 3)
    (hd : ∀ c ∈ g, isDigit c) :
    ¬ (decimalValue g < m.getD g.length 0) ↔ noLeadingZero g := by
  unfold isDigit at hd
  match g, h1, h3, hd with
  | [a], _, _, hd =>
    simp [m, noLeadingZero]
  | [a, b], _, _, hd =>
    have := hd a (by simp)
    have := hd b (by simp)
    simp only [m, noLeadingZero, decimalValue, List.foldl_cons, List.foldl_nil, List.length_cons,
      List.length_nil, List.getD_cons_succ, List.getD_cons_zero, List.head?_cons, ne_eq,
      Option.some.injEq, Nat.reduceAdd, Nat.reduceEqDiff, false_or]
    omega
  | [a, b, c], _, _, hd =>
    have := hd a (by simp)
    have := hd b (by simp)
    have := hd c (by simp)
    simp only [m, noLeadingZero, decimalValue, List.foldl_cons, List.foldl_nil, List.length_cons,
      List.length_nil, List.getD_cons_succ, List.getD_cons_zero, List.head?_cons, ne_eq,
      Option.some.injEq, Nat.reduceAdd, Nat.reduceEqDiff, false_or]
    omega
  | _ :: _ :: _ :: _ :: _, _, h3, _ => simp at h3

theorem cells_update_snoc (mem : Nat → Nat) (pos len v : Nat) :
    cells (Function.update mem (pos + len) v) pos (len + 1) = cells mem pos len ++ [v] := by
  rw [cells_succ_right, Function.update_same]
  congr 1
  apply cells_congr
  intro i _ h2
  exact Function.update_noteq (by omega) _ _

/-- When the loop of `parse_ip4` breaks, what it has walked over is a sequence
of groups without superfluous leading zeros, each but the last followed by a dot,
the values of which it has stored, and it stands on a delimiter. The invariant
of the loop is stated for the groups `gs` already stored and the digits `cur`
of the group under way. -/
theorem parse_ip4_loop_accepted (data : Nat → Nat) (os : Nat) :
    ∀ (fuel : Nat) (s s' : parse_state) (gs : List (List Nat)) (cur : List Nat),
      parse_ip4_loop data os fuel s = some (.broke, s') →
      slice data 0 s.p = dotted gs ++ cur → (∀ c ∈ cur, isDigit c) →
      s.ps + cur.length = s.p → s.n = decimalValue cur % 2 ^ 64 →
      s.o = os + gs.length → (∀ x ∈ gs, isGroup x ∧ noLeadingZero x) →
      cells s.mem os gs.length = gs.map decimalValue →
      ∃ (gs' : List (List Nat)) (g : List Nat),
        slice data 0 s'.p = dotted gs' ++ g ∧ (∀ x ∈ gs', isGroup x ∧ noLeadingZero x) ∧
        isGroup g ∧ noLeadingZero g ∧ s'.o = os + gs'.length + 1 ∧
        cells s'.mem os (gs'.length + 1) = gs'.map decimalValue ++ [decimalValue g] ∧
        isDelimiter (data s'.p) := by
  intro fuel
  induction fuel with
  | zero => intro s s' gs cur h; simp [parse_ip4_loop] at h
  | succ fuel ih =>
    intro s s' gs cur h h1 h2 h3 h4 h5 h6 h7
    by_cases hd : isDigit (data s.p % 256)
    · rw [parse_ip4_loop_digit _ _ _ _ hd] at h
      refine ih _ s' gs (cur ++ [data s.p % 256]) h ?_ ?_ ?_ ?_ h5 h6 h7
      · simp only []
        rw [slice_succ_right, h1, Nat.zero_add, List.append_assoc]
      · intro c hc
        rcases List.mem_append.1 hc with hc | hc
        · exact h2 c hc
        · rw [List.mem_singleton.1 hc]; exact hd
      · simp only [List.length_append, List.length_singleton]; omega
      · simp only []
        rw [decimalValue_snoc, h4]
        omega
    · rw [parse_ip4_loop_other _ _ _ _ hd] at h
      have hlen : s.p - s.ps = cur.length := by omega
      rw [hlen] at h
      split_ifs at h with c1 c2 c3 c4 c5 c6
      iterate 5 simp at h
      all_goals
        have hv := decimalValue_lt cur (by omega) h2
        have hn : s.n = decimalValue cur := by omega
        have hg : isGroup cur := ⟨by omega, by omega, h2, by omega⟩
        have hz : noLeadingZero cur := (m_check cur (by omega) (by omega) h2).1 (by rw [← hn]; exact c3)
        have hcell : cells (Function.update s.mem s.o (s.n % 256)) os (gs.length + 1)
            = gs.map decimalValue ++ [decimalValue cur] := by
          rw [h5, cells_update_snoc, h7]
          congr 2
          omega
      · simp only [Option.some.injEq, Prod.mk.injEq, true_and] at h
        subst h
        refine ⟨gs, cur, h1, h6, hg, hz, by simp only []; omega, hcell, ?_⟩
        exact ⟨hd, c6⟩
      · have hdot : data s.p % 256 = 46 := by
          by_contra hne
          exact c6 hne
        refine ih _ s' (gs ++ [cur]) [] h ?_ (by simp) (by simp) (by simp [decimalValue]) ?_ ?_ ?_
        · simp only []
          rw [slice_succ_right, h1, Nat.zero_add, hdot, dotted_snoc, List.append_nil]
        · simp only [List.length_append, List.length_singleton]; omega
        · intro x hx
          rcases List.mem_append.1 hx with hx | hx
          · exact h6 x hx
          · rw [List.mem_singleton.1 hx]; exact ⟨hg, hz⟩
        · simp only [List.length_append, List.length_singleton, List.map_append, List.map_cons,
            List.map_nil]
          exact hcell

theorem splitDots_nodot (a : List Nat) (h : ∀ c ∈ a, isDigit c) : splitDots a = [a] := by
  induction a with
  | nil => rfl
  | cons c a ih =>
    have hc : c ≠ 46 := by
      have := h c (by simp)
      unfold isDigit at this; omega
    rw [splitDots, if_neg hc, ih (fun x hx => h x (by simp [hx]))]

theorem splitDots_append_dot (a x : List Nat) (h : ∀ c ∈ a, isDigit c) :
    splitDots (a ++ 46 :: x) = a :: splitDots x := by
  induction a with
  | nil => simp [splitDots]
  | cons c a ih =>
    have hc : c ≠ 46 := by
      have := h c (by simp)
      unfold isDigit at this; omega
    rw [List.cons_append, splitDots, if_neg hc, ih (fun x hx => h x (by simp [hx]))]

theorem splitDots_joinDots (g1 g2 g3 g4 : List Nat) (h1 : isGroup g1) (h2 : isGroup g2)
    (h3 : isGroup g3) (h4 : isGroup g4) :
    splitDots (joinDots [g1, g2, g3, g4]) = [g1, g2, g3, g4] := by
  simp only [joinDots]
  rw [splitDots_append_dot _ _ h1.2.2.1, splitDots_append_dot _ _ h2.2.2.1,
    splitDots_append_dot _ _ h3.2.2.1, splitDots_nodot _ h4.2.2.1]

/-- A token that `parse_ip4` accepts is four groups without superfluous leading
zeros, separated by dots and followed by a delimiter; their values are stored at
the cursor, which moves on by four. -/
theorem parse_ip4_accept_form (fuel : Nat) (token : token_t) (rdata : rdata_t)
    (r : parse_result) (h : parse_ip4 fuel token rdata = some r) (hc : r.code = 0) :
    ∃ g1 g2 g3 g4, (isGroup g1 ∧ noLeadingZero g1) ∧ (isGroup g2 ∧ noLeadingZero g2) ∧
      (isGroup g3 ∧ noLeadingZero g3) ∧ (isGroup g4 ∧ noLeadingZero g4) ∧
      textBytes token.data token.length = joinDots [g1, g2, g3, g4] ∧
      isDelimiter (token.data token.length) ∧
      cells r.rdata.mem rdata.octets 4
        = [decimalValue g1, decimalValue g2, decimalValue g3, decimalValue g4] ∧
      r.rdata.octets = rdata.octets + 4 ∧ r.p = token.length := by
  unfold parse_ip4 at h
  simp only [] at h
  split at h
  · simp at h
  · simp only [Option.some.injEq] at h
    subst h
    simp [SYNTAX_ERROR, ZONE_SYNTAX_ERROR] at hc
  · rename_i s he
    split_ifs at h with hcond
    · simp only [Option.some.injEq] at h
      subst h
      simp [SYNTAX_ERROR, ZONE_SYNTAX_ERROR] at hc
    · simp only [Option.some.injEq] at h
      subst h
      have hp : s.p = token.length := by
        by_contra hne
        exact hcond (Or.inl hne)
      have ho : s.o - rdata.octets = 4 := by
        by_contra hne
        exact hcond (Or.inr hne)
      obtain ⟨gs, g, hs, hgs, hg, hz, hso, hcells, hdel⟩ :=
        parse_ip4_loop_accepted token.data rdata.octets fuel _ s [] [] he
          (by simp [slice, dotted]) (by simp) (by simp) (by simp [decimalValue]) (by simp)
          (by simp) (by simp [cells])
      have hl : gs.length = 3 := by omega
      match gs, hl, hs, hgs, hcells with
      | [a, b, c], _, hs, hgs, hcells =>
        refine ⟨a, b, c, g, hgs a (by simp), hgs b (by simp), hgs c (by simp), ⟨hg, hz⟩,
          ?_, ?_, ?_, rfl, hp⟩
        · rw [joinDots_four, textBytes, ← hp]; exact hs
        · rw [← hp]; exact hdel
        · simpa using hcells

/-- The accumulator of `parse_ip4` after the digits `g`, starting from `n`. -/
theorem parse_ip4_loop_digits (data : Nat → Nat) (os : Nat) :
    ∀ (g : List Nat) (fuel : Nat) (s : parse_state),
      slice data s.p g.length = g → (∀ c ∈ g, isDigit c) →
      ∃ rd, parse_ip4_loop data os (fuel + g.length) s =
        parse_ip4_loop data os fuel
          { s with n := g.foldl (fun a c => (a * 10 + (c - 48)) % 2 ^ 64) s.n,
                   p := s.p + g.length, reads := rd } := by
  intro g
  induction g with
  | nil => intro fuel s _ _; exact ⟨s.reads, rfl⟩
  | cons c g ih =>
    intro fuel s hs hd
    obtain ⟨hc, hs'⟩ := (slice_eq_cons data s.p c g).1 hs
    have hdc : isDigit (data s.p % 256) := by rw [hc]; exact hd c (by simp)
    have e : fuel + (c :: g).length = (fuel + g.length) + 1 := by simp; omega
    rw [e, parse_ip4_loop_digit _ _ _ _ hdc]
    obtain ⟨rd, hrd⟩ := ih fuel
      { s with n := (s.n * 10 + (data s.p % 256 - 48)) % 2 ^ 64, p := s.p + 1,
               reads := s.reads ++ [s.p] } hs' (fun x hx => hd x (by simp [hx]))
    refine ⟨rd, ?_⟩
    rw [hrd]
    simp only [List.foldl_cons, List.length_cons, hc]
    have : s.p + 1 + g.length = s.p + (g.length + 1) := by omega
    rw [this]

theorem foldl_group (g : List Nat) (h3 : g.length ≤ 3) (hd : ∀ c ∈ g, isDigit c) :
    g.foldl (fun a c => (a * 10 + (c - 48)) % 2 ^ 64) 0 = decimalValue g := by
  unfold isDigit at hd
  match g, h3, hd with
  | [], _, _ => simp [decimalValue]
  | [a], _, hd =>
    have := hd a (by simp)
    simp only [decimalValue, List.foldl_cons, List.foldl_nil]; omega
  | [a, b], _, hd =>
    have := hd a (by simp)
    have := hd b (by simp)
    simp only [decimalValue, List.foldl_cons, List.foldl_nil]; omega
  | [a, b, c], _, hd =>
    have := hd a (by simp)
    have := hd b (by simp)
    have := hd c (by simp)
    simp only [decimalValue, List.foldl_cons, List.foldl_nil]; omega
  | _ :: _ :: _ :: _ :: _, h3, _ => simp at h3

/-- The loop of `parse_ip4` over one group without superfluous leading zero,
from the start of the group to the octet behind it. -/
theorem parse_ip4_loop_group (data : Nat → Nat) (os : Nat) (g : List Nat) (fuel : Nat)
    (s : parse_state) (hps : s.ps = s.p) (hn : s.n = 0) (ho : s.o - os ≤ 3)
    (hg : isGroup g) (hz : noLeadingZero g) (hs : slice data s.p g.length = g)
    (hnd : ¬ isDigit (data (s.p + g.length) % 256)) :
    ∃ rd lk, parse_ip4_loop data os (fuel + 1 + g.length) s =
      if data (s.p + g.length) % 256 ≠ 46 then
        some (.broke, { o := s.o + 1, n := decimalValue g, p := s.p + g.length,
                        ps := s.p + g.length + 1,
                        mem := Function.update s.mem s.o (decimalValue g),
                        reads := rd, lookups := lk })
      else
        parse_ip4_loop data os fuel
          { o := s.o + 1, n := 0, p := s.p + g.length + 1, ps := s.p + g.length + 1,
            mem := Function.update s.mem s.o (decimalValue g), reads := rd, lookups := lk } := by
  obtain ⟨h1, h3, hd, hv⟩ := hg
  obtain ⟨rd, hrd⟩ := parse_ip4_loop_digits data os g (fuel + 1) s hs hd
  rw [hrd, hn, foldl_group g h3 hd]
  rw [parse_ip4_loop_other _ _ _ _ hnd]
  have e1 : s.p + g.length - s.ps = g.length := by omega
  have c3 := (m_check g h1 h3 hd).2 hz
  have hmod : decimalValue g % 256 = decimalValue g := by omega
  simp only [e1, hmod]
  rw [if_neg (by omega), if_neg (by omega), if_neg c3, if_neg (by omega), if_neg (by omega)]
  exact ⟨_, _, rfl⟩

/-- On groups `gs` each followed by a dot and a last group `g` followed by a
delimiter, none with a superfluous leading zero, the loop of `parse_ip4` breaks
on the delimiter, having stored the values of the groups. -/
theorem parse_ip4_loop_accepts (data : Nat → Nat) (os : Nat) :
    ∀ (gs : List (List Nat)) (g : List Nat) (fuel : Nat) (s : parse_state),
      s.ps = s.p → s.n = 0 → os ≤ s.o → s.o - os + gs.length ≤ 3 →
      (dotted gs ++ g).length + 1 ≤ fuel →
      (∀ x ∈ gs, isGroup x ∧ noLeadingZero x) → isGroup g → noLeadingZero g →
      slice data s.p (dotted gs ++ g).length = dotted gs ++ g →
      isDelimiter (data (s.p + (dotted gs ++ g).length)) →
      ∃ s', parse_ip4_loop data os fuel s = some (.broke, s') ∧
        s'.p = s.p + (dotted gs ++ g).length ∧ s'.o = s.o + gs.length + 1 ∧
        cells s'.mem s.o (gs.length + 1) = gs.map decimalValue ++ [decimalValue g] ∧
        (∀ j, j < s.o → s'.mem j = s.mem j) := by
  intro gs
  induction gs with
  | nil =>
    intro g fuel s hps hn _ ho hf _ hg hz hs hdl
    simp only [dotted, List.nil_append] at hs hdl hf ⊢
    obtain ⟨fuel, rfl⟩ : ∃ f, fuel = f + 1 + g.length := ⟨fuel - 1 - g.length, by omega⟩
    obtain ⟨rd, lk, h⟩ := parse_ip4_loop_group data os g fuel s hps hn (by simpa using ho)
      hg hz hs hdl.1
    rw [h, if_pos hdl.2]
    refine ⟨_, rfl, rfl, rfl, by simp [cells], ?_⟩
    intro j hj
    exact Function.update_noteq (by omega) _ _
  | cons g0 gs ih =>
    intro g fuel s hps hn hos ho hf hgs hg hz hs hdl
    have e : dotted (g0 :: gs) ++ g = g0 ++ 46 :: (dotted gs ++ g) := by simp [dotted]
    have hlen : (g0 ++ 46 :: (dotted gs ++ g)).length
        = g0.length + 1 + (dotted gs ++ g).length := by
      simp; omega
    rw [e] at hs hdl hf
    rw [e]
    rw [hlen] at hdl hf
    obtain ⟨hs0, hs1⟩ := (slice_eq_append data s.p g0 _).1 hs
    obtain ⟨hdot, hs2⟩ := (slice_eq_cons data _ 46 _).1 hs1
    obtain ⟨hg0, hz0⟩ := hgs g0 (by simp)
    have hnd : ¬ isDigit (data (s.p + g0.length) % 256) := by
      rw [hdot]; unfold isDigit; omega
    simp only [List.length_cons] at ho
    obtain ⟨fuel, rfl⟩ : ∃ f, fuel = f + 1 + g0.length := ⟨fuel - 1 - g0.length, by omega⟩
    obtain ⟨rd, lk, h⟩ := parse_ip4_loop_group data os g0 fuel s hps hn (by omega)
      hg0 hz0 hs0 hnd
    rw [h, if_neg (by simp [hdot])]
    obtain ⟨s', he, hp', ho', hc', hm'⟩ := ih g fuel
      { o := s.o + 1, n := 0, p := s.p + g0.length + 1, ps := s.p + g0.length + 1,
        mem := Function.update s.mem s.o (decimalValue g0), reads := rd, lookups := lk }
      rfl rfl (by simp only []; omega) (by simp only []; omega) (by omega)
      (fun x hx => hgs x (by simp [hx])) hg hz hs2
      (by
        have e2 : s.p + (g0.length + 1 + (dotted gs ++ g).length)
            = s.p + g0.length + 1 + (dotted gs ++ g).length := by omega
        rw [e2] at hdl
        exact hdl)
    simp only [] at hp' ho' hc' hm'
    refine ⟨s', he, ?_, ?_, ?_, ?_⟩
    · rw [hp', hlen]; omega
    · rw [ho', List.length_cons]; omega
    · have hw0 : s'.mem s.o = decimalValue g0 := by
        rw [hm' s.o (by omega)]
        simp
      rw [List.length_cons, cells, hw0, hc']
      rfl
    · intro j hj
      rw [hm' j (by omega)]
      exact Function.update_noteq (by omega) _ _

/-- A token of four groups without superfluous leading zeros, separated by dots
and followed by a delimiter, is accepted by `parse_ip4`, which stores the values
of the groups at the cursor and moves it on by four. -/
theorem parse_ip4_of_form (fuel : Nat) (token : token_t) (rdata : rdata_t)
    (g1 g2 g3 g4 : List Nat)
    (h1 : isGroup g1 ∧ noLeadingZero g1) (h2 : isGroup g2 ∧ noLeadingZero g2)
    (h3 : isGroup g3 ∧ noLeadingZero g3) (h4 : isGroup g4 ∧ noLeadingZero g4)
    (hs : textBytes token.data token.length = joinDots [g1, g2, g3, g4])
    (hdl : isDelimiter (token.data token.length)) (hf : token.length < fuel) :
    ∃ r, parse_ip4 fuel token rdata = some r ∧ r.code = 0 ∧
      cells r.rdata.mem rdata.octets 4
        = [decimalValue g1, decimalValue g2, decimalValue g3, decimalValue g4] ∧
      r.rdata.octets = rdata.octets + 4 ∧ r.p = token.length ∧
      (∀ i, (i < rdata.octets ∨ rdata.octets + 4 ≤ i) → r.rdata.mem i = rdata.mem i) := by
  have hl : token.length = (dotted [g1, g2, g3] ++ g4).length := by
    rw [← joinDots_four, ← hs, textBytes, slice_length]
  rw [joinDots_four, textBytes, hl] at hs
  obtain ⟨s', he, hp, ho, hc, -⟩ := parse_ip4_loop_accepts token.data rdata.octets
    [g1, g2, g3] g4 fuel
    { o := rdata.octets, n := 0, p := 0, ps := 0, mem := Function.update rdata.mem rdata.octets 0,
      reads := [], lookups := [] }
    rfl rfl (by simp) (by simp) (by omega)
    (by
      intro x hx
      simp only [List.mem_cons, List.mem_singleton, List.not_mem_nil, or_false] at hx
      rcases hx with rfl | rfl | rfl
      · exact h1
      · exact h2
      · exact h3)
    h4.1 h4.2 hs (by simpa [← hl] using hdl)
  obtain ⟨-, hfr⟩ := parse_ip4_loop_frame token.data rdata.octets fuel _ _ _ he (by simp)
  simp only [] at hp ho hc hfr
  unfold parse_ip4
  simp only [he]
  have hcond : ¬ (s'.p ≠ token.length ∨ s'.o - rdata.octets ≠ 4) := by
    rw [hp, ho, hl]
    simp only [List.length_cons, List.length_nil]
    omega
  rw [if_neg hcond]
  refine ⟨_, rfl, rfl, by simpa using hc, rfl, by simp only []; omega, ?_⟩
  intro i hi
  show s'.mem i = rdata.mem i
  rw [hfr i hi]
  exact Function.update_noteq (by omega) _ _

/-! ## Lemmas on the two functions -/

set_option maxRecDepth 100000 in
/-- The rendering of an octet is a group without superfluous leading zero that
has the octet as its value. -/
theorem decimal_group : ∀ a, a ≤ 255 →
    isGroup (decimal a) ∧ noLeadingZero (decimal a) ∧ decimalValue (decimal a) = a := by
  decide

theorem parse_ip4_code (fuel : Nat) (token : token_t) (rdata : rdata_t) (r : parse_result)
    (h : parse_ip4 fuel token rdata = some r) : r.code = 0 ∨ r.code = ZONE_SYNTAX_ERROR := by
  unfold parse_ip4 at h
  simp only [] at h
  split at h
  · simp at h
  · simp only [Option.some.injEq] at h
    subst h
    exact Or.inr rfl
  · split_ifs at h
    · simp only [Option.some.injEq] at h
      subst h
      exact Or.inr rfl
    · simp only [Option.some.injEq] at h
      subst h
      exact Or.inl rfl

theorem parse_ip4_returns (fuel : Nat) (token : token_t) (rdata : rdata_t) (k : Nat)
    (hk : isDelimiter (token.data k)) (hf : k < fuel) :
    ∃ r, parse_ip4 fuel token rdata = some r := by
  obtain ⟨⟨e, s'⟩, hx⟩ := parse_ip4_loop_total token.data rdata.octets k hk fuel
    { o := rdata.octets, n := 0, p := 0, ps := 0, mem := Function.update rdata.mem rdata.octets 0,
      reads := [], lookups := [] } (by simp) (by simpa using hf)
  unfold parse_ip4
  simp only [hx]
  cases e with
  | returned => exact ⟨_, rfl⟩
  | broke =>
    simp only []
    split_ifs
    · exact ⟨_, rfl⟩
    · exact ⟨_, rfl⟩

theorem parse_ip4_reads (fuel : Nat) (token : token_t) (rdata : rdata_t) (r : parse_result)
    (h : parse_ip4 fuel token rdata = some r) (k : Nat) (hk : isDelimiter (token.data k)) :
    r.p ≤ k ∧ ∀ i ∈ r.reads, i ≤ k := by
  have key : ∀ e s', parse_ip4_loop token.data rdata.octets fuel
      { o := rdata.octets, n := 0, p := 0, ps := 0,
        mem := Function.update rdata.mem rdata.octets 0, reads := [], lookups := [] }
      = some (e, s') → s'.p ≤ k ∧ ∀ i ∈ s'.reads, i ≤ k := by
    intro e s' he
    obtain ⟨h1, h2⟩ := parse_ip4_loop_reads token.data rdata.octets k hk fuel _ e s' he (by simp)
    refine ⟨h1, fun i hi => ?_⟩
    rcases h2 i hi with h | h
    · simp at h
    · exact h
  unfold parse_ip4 at h
  simp only [] at h
  split at h
  · simp at h
  · rename_i s he
    simp only [Option.some.injEq] at h
    subst h
    exact key _ _ he
  · rename_i s he
    split_ifs at h
    · simp only [Option.some.injEq] at h
      subst h
      exact key _ _ he
    · simp only [Option.some.injEq] at h
      subst h
      exact key _ _ he

theorem parse_ip4_frame (fuel : Nat) (token : token_t) (rdata : rdata_t) (r : parse_result)
    (h : parse_ip4 fuel token rdata = some r) (i : Nat)
    (hi : i < rdata.octets ∨ rdata.octets + 4 ≤ i) : r.rdata.mem i = rdata.mem i := by
  have key : ∀ e s', parse_ip4_loop token.data rdata.octets fuel
      { o := rdata.octets, n := 0, p := 0, ps := 0,
        mem := Function.update rdata.mem rdata.octets 0, reads := [], lookups := [] }
      = some (e, s') → s'.mem i = rdata.mem i := by
    intro e s' he
    obtain ⟨-, h2⟩ := parse_ip4_loop_frame token.data rdata.octets fuel _ e s' he (by simp)
    rw [h2 i hi]
    exact Function.update_noteq (by omega) _ _
  unfold parse_ip4 at h
  simp only [] at h
  split at h
  · simp at h
  · rename_i s he
    simp only [Option.some.injEq] at h
    subst h
    exact key _ _ he
  · rename_i s he
    split_ifs at h
    · simp only [Option.some.injEq] at h
      subst h
      exact key _ _ he
    · simp only [Option.some.injEq] at h
      subst h
      exact key _ _ he

/-- The loop of `scan_ip4` started in a round below four stores only below
`wire[4]`, whatever the fuel. -/
theorem scan_ip4_loop_frame (text : Nat → Nat) :
    ∀ (fuel : Nat) (s : scan_state) (e : loop_exit) (s' : scan_state),
      scan_ip4_loop text fuel s = some (e, s') → s.round < 4 →
        ∀ i, 4 ≤ i → s'.wire i = s.wire i := by
  intro fuel
  induction fuel with
  | zero => intro s e s' h; simp [scan_ip4_loop] at h
  | succ fuel ih =>
    intro s e s' h h1
    have hw : ∀ v i, 4 ≤ i → Function.update s.wire s.round v i = s.wire i := by
      intro v i hi
      exact Function.update_noteq (by omega) _ _
    rw [scan_ip4_loop_succ] at h
    split_ifs at h with c0 c1 c2
    · simp only [Option.some.injEq, Prod.mk.injEq] at h
      obtain ⟨-, rfl⟩ := h
      exact fun _ _ => rfl
    · simp only [Option.some.injEq, Prod.mk.injEq] at h
      obtain ⟨-, rfl⟩ := h
      exact fun _ _ => rfl
    · simp only [Option.some.injEq, Prod.mk.injEq] at h
      obtain ⟨-, rfl⟩ := h
      exact hw _
    · have hround : s.round + 1 < 4 := by
        have : ¬ (s.round + 1 = 4) := fun h => c2 (Or.inr h)
        omega
      intro i hi
      rw [ih _ e s' h hround i hi]
      exact hw _ i hi

theorem scan_ip4_frame (fuel : Nat) (text wire : Nat → Nat) (length : Nat) (r : scan_result)
    (h : scan_ip4 fuel text wire length = some r) (i : Nat) (hi : 4 ≤ i) :
    r.wire i = wire i := by
  unfold scan_ip4 at h
  split at h
  · simp at h
  · rename_i s he
    simp only [Option.some.injEq] at h
    subst h
    exact scan_ip4_loop_frame text fuel _ _ _ he (by simp) i hi
  · rename_i s he
    split_ifs at h
    · simp only [Option.some.injEq] at h
      subst h
      exact scan_ip4_loop_frame text fuel _ _ _ he (by simp) i hi
    · simp only [Option.some.injEq] at h
      subst h
      exact scan_ip4_loop_frame text fuel _ _ _ he (by simp) i hi

theorem scan_ip4_reads (fuel : Nat) (text wire : Nat → Nat) (length : Nat) (r : scan_result)
    (h : scan_ip4 fuel text wire length = some r) (k : Nat) (hk : isDelimiter (text k)) :
    ∀ i ∈ r.reads, i ≤ k + 2 := by
  have key : ∀ e s', scan_ip4_loop text fuel { text := 0, round := 0, wire := wire, reads := [] }
      = some (e, s') → ∀ i ∈ s'.reads, i ≤ k + 2 := by
    intro e s' he i hi
    obtain ⟨-, h2⟩ := scan_ip4_loop_reads text k hk fuel _ e s' he (by simp)
    rcases h2 i hi with h | h
    · simp at h
    · exact h
  unfold scan_ip4 at h
  split at h
  · simp at h
  · rename_i s he
    simp only [Option.some.injEq] at h
    subst h
    exact key _ _ he
  · rename_i s he
    split_ifs at h
    · simp only [Option.some.injEq] at h
      subst h
      exact key _ _ he
    · simp only [Option.some.injEq] at h
      subst h
      exact key _ _ he

/-! ## When the loop of `parse_ip4` ends -/

/-- More fuel does not change what the loop of `parse_ip4` has returned. -/
theorem parse_ip4_loop_mono (data : Nat → Nat) (os : Nat) :
    ∀ (fuel : Nat) (s : parse_state) (x : loop_exit × parse_state),
      parse_ip4_loop data os fuel s = some x → parse_ip4_loop data os (fuel + 1) s = some x := by
  intro fuel
  induction fuel with
  | zero => intro s x h; simp [parse_ip4_loop] at h
  | succ fuel ih =>
    intro s x h
    by_cases hd : isDigit (data s.p % 256)
    · rw [parse_ip4_loop_digit _ _ _ _ hd] at h ⊢
      exact ih _ x h
    · rw [parse_ip4_loop_other _ _ _ _ hd] at h ⊢
      split_ifs at h ⊢ with c1 c2 c3 c4 c5 c6
      iterate 6 exact h
      exact ih _ x h

theorem parse_ip4_loop_mono_add (data : Nat → Nat) (os : Nat) (k fuel : Nat) (s : parse_state)
    (x : loop_exit × parse_state) (h : parse_ip4_loop data os fuel s = some x) :
    parse_ip4_loop data os (fuel + k) s = some x := by
  induction k with
  | zero => exact h
  | succ k ih => exact parse_ip4_loop_mono data os (fuel + k) s x ih

/-- On decimal digits without end the loop of `parse_ip4` uses up any fuel. -/
theorem parse_ip4_loop_all_digits (data : Nat → Nat) (os : Nat) :
    ∀ (fuel : Nat) (s : parse_state), (∀ i, s.p ≤ i → isDigit (data i % 256)) →
      parse_ip4_loop data os fuel s = none := by
  intro fuel
  induction fuel with
  | zero => intro s _; rfl
  | succ fuel ih =>
    intro s h
    rw [parse_ip4_loop_digit _ _ _ _ (h s.p (Nat.le_refl _))]
    exact ih _ (fun i hi => h i (by simp only [] at hi; omega))

/-- The loop of `parse_ip4` over the digits `g`, with the loads it makes. -/
theorem parse_ip4_loop_digits_trace (data : Nat → Nat) (os : Nat) :
    ∀ (g : List Nat) (fuel : Nat) (s : parse_state),
      slice data s.p g.length = g → (∀ c ∈ g, isDigit c) →
      parse_ip4_loop data os (fuel + g.length) s =
        parse_ip4_loop data os fuel
          { s with n := g.foldl (fun a c => (a * 10 + (c - 48)) % 2 ^ 64) s.n,
                   p := s.p + g.length, reads := s.reads ++ List.range' s.p g.length } := by
  intro g
  induction g with
  | nil => intro fuel s _ _; simp
  | cons c g ih =>
    intro fuel s hs hd
    obtain ⟨hc, hs'⟩ := (slice_eq_cons data s.p c g).1 hs
    have hdc : isDigit (data s.p % 256) := by rw [hc]; exact hd c (by simp)
    have e : fuel + (c :: g).length = (fuel + g.length) + 1 := by simp; omega
    rw [e, parse_ip4_loop_digit _ _ _ _ hdc]
    rw [ih fuel
      { s with n := (s.n * 10 + (data s.p % 256 - 48)) % 2 ^ 64, p := s.p + 1,
               reads := s.reads ++ [s.p] } hs' (fun x hx => hd x (by simp [hx]))]
    simp only [List.foldl_cons, List.length_cons, hc, List.range'_succ, List.append_assoc,
      List.singleton_append]
    have : s.p + 1 + g.length = s.p + (g.length + 1) := by omega
    rw [this]

/-- On groups each followed by a dot and then digits without end, the loop of
`parse_ip4` uses up any fuel. -/
theorem parse_ip4_loop_endless (data : Nat → Nat) (os : Nat) :
    ∀ (gs : List (List Nat)) (fuel : Nat) (s : parse_state),
      s.ps = s.p → s.n = 0 → s.o - os + gs.length ≤ 4 →
      (∀ g ∈ gs, isGroup g ∧ noLeadingZero g) →
      slice data s.p (dotted gs).length = dotted gs →
      (∀ i, s.p + (dotted gs).length ≤ i → isDigit (data i % 256)) →
      parse_ip4_loop data os fuel s = none := by
  intro gs
  induction gs with
  | nil =>
    intro fuel s _ _ _ _ _ hd
    exact parse_ip4_loop_all_digits data os fuel s (fun i hi => hd i (by simpa [dotted] using hi))
  | cons g0 gs ih =>
    intro fuel s hps hn ho hgs hs hd
    have e : dotted (g0 :: gs) = g0 ++ 46 :: dotted gs := rfl
    have hlen : (g0 ++ 46 :: dotted gs).length = g0.length + 1 + (dotted gs).length := by
      simp; omega
    rw [e] at hs hd
    rw [hlen] at hd
    obtain ⟨hs0, hs1⟩ := (slice_eq_append data s.p g0 _).1 hs
    obtain ⟨hdot, hs2⟩ := (slice_eq_cons data _ 46 _).1 hs1
    obtain ⟨hg0, hz0⟩ := hgs g0 (by simp)
    have hnd : ¬ isDigit (data (s.p + g0.length) % 256) := by
      rw [hdot]; unfold isDigit; omega
    simp only [List.length_cons] at ho
    obtain ⟨rd, lk, h⟩ := parse_ip4_loop_group data os g0 fuel s hps hn (by omega)
      hg0 hz0 hs0 hnd
    rw [if_neg (by simp [hdot])] at h
    have hnone := ih fuel
      { o := s.o + 1, n := 0, p := s.p + g0.length + 1, ps := s.p + g0.length + 1,
        mem := Function.update s.mem s.o (decimalValue g0), reads := rd, lookups := lk }
      rfl rfl (by simp only []; omega) (fun x hx => hgs x (by simp [hx])) hs2
      (fun i hi => hd i (by simp only [] at hi; omega))
    rw [← h] at hnone
    cases hcur : parse_ip4_loop data os fuel s with
    | none => rfl
    | some x =>
      have := parse_ip4_loop_mono_add data os (1 + g0.length) fuel s x hcur
      rw [← Nat.add_assoc, hnone] at this
      simp at this

/-- From the start of a group the loop of `parse_ip4` either finds digits
without end, or returns, or walks over one group and the dot behind it and is at
the start of the next group. -/
theorem parse_ip4_loop_next (data : Nat → Nat) (os : Nat) (s : parse_state)
    (hps : s.ps = s.p) (hn : s.n = 0) :
    (∀ i, s.p ≤ i → isDigit (data i % 256)) ∨
    (∃ fuel x, parse_ip4_loop data os fuel s = some x) ∨
    (∃ (g : List Nat) (s2 : parse_state), isGroup g ∧ noLeadingZero g ∧
      slice data s.p g.length = g ∧ data (s.p + g.length) % 256 = 46 ∧ s.o - os ≤ 3 ∧
      s2.ps = s2.p ∧ s2.n = 0 ∧ s2.o = s.o + 1 ∧ s2.p = s.p + g.length + 1 ∧
      ∀ fuel, parse_ip4_loop data os (fuel + 1 + g.length) s
        = parse_ip4_loop data os fuel s2) := by
  by_cases hex : ∃ q, s.p ≤ q ∧ ¬ isDigit (data q % 256)
  · right
    have hq := Nat.find_spec hex
    have hmin : ∀ j, s.p ≤ j → j < Nat.find hex → isDigit (data j % 256) := by
      intro j h1 h2
      by_contra hnd
      exact Nat.find_min hex h2 ⟨h1, hnd⟩
    generalize Nat.find hex = q at hq hmin
    obtain ⟨hle, hndq⟩ := hq
    have hgl : (slice data s.p (q - s.p)).length = q - s.p := slice_length _ _ _
    have hgd : ∀ c ∈ slice data s.p (q - s.p), isDigit c := by
      intro c hc
      obtain ⟨j, hj, rfl⟩ := slice_mem data s.p _ c hc
      exact hmin _ (by omega) (by omega)
    have hgs : slice data s.p (slice data s.p (q - s.p)).length = slice data s.p (q - s.p) := by
      rw [hgl]
    have hpq : s.p + (q - s.p) = q := by omega
    have hstep : ∀ fuel, parse_ip4_loop data os (fuel + 1 + (q - s.p)) s =
        parse_ip4_loop data os (fuel + 1)
          { s with n := (slice data s.p (q - s.p)).foldl
                      (fun a c => (a * 10 + (c - 48)) % 2 ^ 64) 0,
                   p := q, reads := s.reads ++ List.range' s.p (q - s.p) } := by
      intro fuel
      have := parse_ip4_loop_digits_trace data os (slice data s.p (q - s.p)) (fuel + 1) s hgs hgd
      rw [hgl, hn, hpq] at this
      exact this
    have hdiff : q - s.ps = q - s.p := by rw [hps]
    by_cases hcont : ¬ (q - s.p = 0) ∧ ¬ (q - s.p > 3) ∧
        ¬ ((slice data s.p (q - s.p)).foldl (fun a c => (a * 10 + (c - 48)) % 2 ^ 64) 0
            < m.getD (q - s.p) 0) ∧
        ¬ ((slice data s.p (q - s.p)).foldl (fun a c => (a * 10 + (c - 48)) % 2 ^ 64) 0 > 255) ∧
        ¬ (s.o - os > 3) ∧ data q % 256 = 46
    · right
      obtain ⟨c1, c2, c3, c4, c5, c6⟩ := hcont
      have hfold := foldl_group (slice data s.p (q - s.p)) (by rw [hgl]; omega) hgd
      rw [hfold] at c3 c4
      have hg : isGroup (slice data s.p (q - s.p)) :=
        ⟨by rw [hgl]; omega, by rw [hgl]; omega, hgd, by omega⟩
      have hz : noLeadingZero (slice data s.p (q - s.p)) :=
        (m_check _ hg.1 hg.2.1 hgd).1 (by rw [hgl]; exact c3)
      refine ⟨slice data s.p (q - s.p),
        { o := s.o + 1, n := 0, p := q + 1, ps := q + 1,
          mem := Function.update s.mem s.o (decimalValue (slice data s.p (q - s.p)) % 256),
          reads := s.reads ++ List.range' s.p (q - s.p) ++ [q] ++ [q],
          lookups := s.lookups ++ [q - s.p] },
        hg, hz, hgs, by rw [hgl, hpq]; exact c6, by omega, rfl, rfl, rfl,
        by simp only [hgl]; omega, ?_⟩
      intro fuel
      rw [hgl, hstep fuel, parse_ip4_loop_other _ _ _ _ hndq, hfold]
      simp only [hdiff]
      rw [if_neg c1, if_neg c2, if_neg c3, if_neg c4, if_neg c5, if_neg (by simp [c6])]
    · left
      refine ⟨0 + 1 + (q - s.p), ?_⟩
      rw [hstep 0, parse_ip4_loop_other _ _ _ _ hndq]
      simp only [hdiff]
      split_ifs with c1 c2 c3 c4 c5 c6
      iterate 6 exact ⟨_, rfl⟩
      exfalso
      exact hcont ⟨c1, c2, c3, c4, c5, by simpa using c6⟩
  · left
    intro i hi
    by_contra hnd
    exact hex ⟨i, hi, hnd⟩

/-- From the start of a group the loop of `parse_ip4` returns with some fuel,
unless the rest of the text is groups each followed by a dot, as many as the
destination still takes, and then digits without end. -/
theorem parse_ip4_loop_ends (data : Nat → Nat) (os : Nat) :
    ∀ (k : Nat) (s : parse_state), s.ps = s.p → s.n = 0 → os ≤ s.o → s.o - os ≤ 4 →
      4 - (s.o - os) ≤ k →
      (∃ fuel x, parse_ip4_loop data os fuel s = some x) ∨
      (∃ gs : List (List Nat), s.o - os + gs.length ≤ 4 ∧
        (∀ g ∈ gs, isGroup g ∧ noLeadingZero g) ∧
        slice data s.p (dotted gs).length = dotted gs ∧
        ∀ i, s.p + (dotted gs).length ≤ i → isDigit (data i % 256)) := by
  intro k
  induction k with
  | zero =>
    intro s hps hn hos ho hk
    rcases parse_ip4_loop_next data os s hps hn with h | h | ⟨g, s2, -, -, -, -, h3, -⟩
    · exact Or.inr ⟨[], by simpa using ho, by simp, by simp [dotted, slice],
        fun i hi => h i (by simpa [dotted] using hi)⟩
    · exact Or.inl h
    · omega
  | succ k ih =>
    intro s hps hn hos ho hk
    rcases parse_ip4_loop_next data os s hps hn with h | h |
      ⟨g, s2, hg, hz, hs, hdot, h3, hps2, hn2, ho2, hp2, hrun⟩
    · exact Or.inr ⟨[], by simpa using ho, by simp, by simp [dotted, slice],
        fun i hi => h i (by simpa [dotted] using hi)⟩
    · exact Or.inl h
    · rcases ih s2 hps2 hn2 (by omega) (by omega) (by omega) with ⟨fuel, x, hx⟩ |
        ⟨gs, hlen, hgs, hsl, hd⟩
      · exact Or.inl ⟨fuel + 1 + g.length, x, by rw [hrun fuel, hx]⟩
      · right
        have e : dotted (g :: gs) = g ++ 46 :: dotted gs := rfl
        have hl : (g ++ 46 :: dotted gs).length = g.length + 1 + (dotted gs).length := by
          simp; omega
        refine ⟨g :: gs, by simp only [List.length_cons]; omega, ?_, ?_, ?_⟩
        · intro x hx
          rcases List.mem_cons.1 hx with rfl | hx
          · exact ⟨hg, hz⟩
          · exact hgs x hx
        · rw [e, slice_eq_append]
          refine ⟨hs, ?_⟩
          rw [slice_eq_cons]
          refine ⟨hdot, ?_⟩
          rw [hp2] at hsl
          exact hsl
        · intro i hi
          rw [e, hl] at hi
          exact hd i (by rw [hp2]; omega)

/-- `parse_ip4` returns with some fuel exactly when the text is not endless
digits behind at most four groups with their dots. -/
theorem parse_ip4_returns_iff (token : token_t) (rdata : rdata_t) :
    (∃ fuel r, parse_ip4 fuel token rdata = some r) ↔ ¬ endlessDigits token.data := by
  constructor
  · rintro ⟨fuel, r, h⟩ ⟨gs, hlen, hgs, hs, hd⟩
    have hnone := parse_ip4_loop_endless token.data rdata.octets gs fuel
      { o := rdata.octets, n := 0, p := 0, ps := 0,
        mem := Function.update rdata.mem rdata.octets 0, reads := [], lookups := [] }
      rfl rfl (by simpa using hlen) hgs hs (fun i hi => hd i (by simpa using hi))
    unfold parse_ip4 at h
    simp only [hnone] at h
    simp at h
  · intro hne
    rcases parse_ip4_loop_ends token.data rdata.octets 4
      { o := rdata.octets, n := 0, p := 0, ps := 0,
        mem := Function.update rdata.mem rdata.octets 0, reads := [], lookups := [] }
      rfl rfl (Nat.le_refl _) (by simp) (by simp) with ⟨fuel, ⟨e, s'⟩, hx⟩ | ⟨gs, hlen, hgs, hs, hd⟩
    · refine ⟨fuel, ?_⟩
      unfold parse_ip4
      simp only [hx]
      cases e with
      | returned => exact ⟨_, rfl⟩
      | broke =>
        simp only []
        split_ifs
        · exact ⟨_, rfl⟩
        · exact ⟨_, rfl⟩
    · exfalso
      exact hne ⟨gs, by simpa using hlen, hgs, hs, fun i hi => hd i (by simpa using hi)⟩

/-! ## The claims -/

/-- C1: every token that `parse_ip4` accepts (returns 0) has the text
`g1.g2.g3.g4` with each `gi` a run of decimal digits (one to three of them, of
value at most 255); the four octets stored at the rdata cursor are the decimal
values of `g1`, `g2`, `g3`, `g4` in that order, the first at the lowest offset,
and the cursor is advanced by exactly 4. In particular the token `1.2.3.4`
followed by a delimiter is accepted and yields the octets 01 02 03 04. -/
theorem parse_ip4_accepted_octets :
    (∀ (fuel : Nat) (token : token_t) (rdata : rdata_t) (r : parse_result),
      parse_ip4 fuel token rdata = some r → r.code = 0 →
      ∃ g1 g2 g3 g4, isGroup g1 ∧ isGroup g2 ∧ isGroup g3 ∧ isGroup g4 ∧
        textBytes token.data token.length = joinDots [g1, g2, g3, g4] ∧
        cells r.rdata.mem rdata.octets 4
          = [decimalValue g1, decimalValue g2, decimalValue g3, decimalValue g4] ∧
        r.rdata.octets = rdata.octets + 4) ∧
    (∀ (fuel : Nat) (token : token_t) (rdata : rdata_t),
      textBytes token.data token.length = ascii "1.2.3.4" →
      isDelimiter (token.data token.length) → token.length < fuel →
      ∃ r, parse_ip4 fuel token rdata = some r ∧ r.code = 0 ∧
        cells r.rdata.mem rdata.octets 4 = [1, 2, 3, 4] ∧
        r.rdata.octets = rdata.octets + 4) := by
  constructor
  · intro fuel token rdata r h hc
    obtain ⟨g1, g2, g3, g4, h1, h2, h3, h4, hs, -, hcells, ho, -⟩ :=
      parse_ip4_accept_form fuel token rdata r h hc
    exact ⟨g1, g2, g3, g4, h1.1, h2.1, h3.1, h4.1, hs, hcells, ho⟩
  · intro fuel token rdata hs hdl hf
    obtain ⟨r, hr, hc, hcells, ho, -, -⟩ := parse_ip4_of_form fuel token rdata
      [49] [50] [51] [52] (by decide) (by decide) (by decide) (by decide)
      (by rw [hs]; decide) hdl hf
    exact ⟨r, hr, hc, by simpa [decimalValue] using hcells, ho⟩

/-- C1 at the tokens `192.0.2.1` and `1.2.3.4`, each followed by a space. -/
theorem parse_ip4_accepted_octets_witness :
    (∃ g1 g2 g3 g4, isGroup g1 ∧ isGroup g2 ∧ isGroup g3 ∧ isGroup g4 ∧
      textBytes (ofList (ascii "192.0.2.1 ")) 9 = joinDots [g1, g2, g3, g4] ∧
      cells (Function.update (Function.update (Function.update (Function.update
          (Function.update zeros 0 0) 0 192) 1 0) 2 2) 3 1) 0 4
        = [decimalValue g1, decimalValue g2, decimalValue g3, decimalValue g4] ∧
      0 + 4 = 0 + 4) ∧
    (∃ r, parse_ip4 8 ⟨ofList (ascii "1.2.3.4 "), 7⟩ ⟨0, zeros⟩ = some r ∧ r.code = 0 ∧
      cells r.rdata.mem 0 4 = [1, 2, 3, 4] ∧ r.rdata.octets = 0 + 4) :=
  ⟨parse_ip4_accepted_octets.1 10 ⟨ofList (ascii "192.0.2.1 "), 9⟩ ⟨0, zeros⟩
      ⟨0, ⟨0 + 4, Function.update (Function.update (Function.update (Function.update
          (Function.update zeros 0 0) 0 192) 1 0) 2 2) 3 1⟩, 9,
        [0, 1, 2, 3, 3, 4, 5, 5, 6, 7, 7, 8, 9, 9], [3, 1, 1, 1]⟩ rfl rfl,
   parse_ip4_accepted_octets.2 8 ⟨ofList (ascii "1.2.3.4 "), 7⟩ ⟨0, zeros⟩
      (by decide) (by decide) (by decide)⟩

/-- C3, as the claim states it, fails: the token `01.2.3.4`, four groups of one
to three digits with values in 0..255 followed by a space, is rejected with a
syntax error. -/
theorem parse_ip4_rejects_leading_zero :
    isAddressText (ascii "01.2.3.4") ∧ isDelimiter 32 ∧
    (parse_ip4 9 ⟨ofList (ascii "01.2.3.4 "), 8⟩ ⟨0, zeros⟩).map (fun r => r.code)
      = some ZONE_SYNTAX_ERROR := by
  decide

/-- C3, amended: besides the magnitude check `parse_ip4` checks each group
against a superfluous leading zero. For every token of exactly four
dot-separated groups of one to three decimal digits with values in 0..255,
followed by a delimiter that is neither a digit nor a dot, `parse_ip4` succeeds
and writes the four group values when no group of more than one digit starts
with `0`, and reports a syntax error otherwise. -/
theorem parse_ip4_leading_zeros (fuel : Nat) (token : token_t) (rdata : rdata_t)
    (g1 g2 g3 g4 : List Nat) (h1 : isGroup g1) (h2 : isGroup g2) (h3 : isGroup g3)
    (h4 : isGroup g4) (hs : textBytes token.data token.length = joinDots [g1, g2, g3, g4])
    (hdl : isDelimiter (token.data token.length)) (hf : token.length < fuel) :
    ∃ r, parse_ip4 fuel token rdata = some r ∧
      ((noLeadingZero g1 ∧ noLeadingZero g2 ∧ noLeadingZero g3 ∧ noLeadingZero g4) →
        r.code = 0 ∧ r.rdata.octets = rdata.octets + 4 ∧
        cells r.rdata.mem rdata.octets 4
          = [decimalValue g1, decimalValue g2, decimalValue g3, decimalValue g4]) ∧
      (¬ (noLeadingZero g1 ∧ noLeadingZero g2 ∧ noLeadingZero g3 ∧ noLeadingZero g4) →
        r.code = ZONE_SYNTAX_ERROR) := by
  by_cases hz : noLeadingZero g1 ∧ noLeadingZero g2 ∧ noLeadingZero g3 ∧ noLeadingZero g4
  · obtain ⟨r, hr, hc, hcells, ho, -, -⟩ := parse_ip4_of_form fuel token rdata g1 g2 g3 g4
      ⟨h1, hz.1⟩ ⟨h2, hz.2.1⟩ ⟨h3, hz.2.2.1⟩ ⟨h4, hz.2.2.2⟩ hs hdl hf
    exact ⟨r, hr, fun _ => ⟨hc, ho, hcells⟩, fun hn => absurd hz hn⟩
  · obtain ⟨r, hr⟩ := parse_ip4_returns fuel token rdata token.length hdl hf
    refine ⟨r, hr, fun h => absurd h hz, fun _ => ?_⟩
    rcases parse_ip4_code fuel token rdata r hr with hc | hc
    · exfalso
      apply hz
      obtain ⟨a, b, c, d, ha, hb, hc', hd, hs', -⟩ :=
        parse_ip4_accept_form fuel token rdata r hr hc
      have e : splitDots (joinDots [g1, g2, g3, g4]) = splitDots (joinDots [a, b, c, d]) := by
        rw [← hs, hs']
      rw [splitDots_joinDots g1 g2 g3 g4 h1 h2 h3 h4,
        splitDots_joinDots a b c d ha.1 hb.1 hc'.1 hd.1] at e
      simp only [List.cons.injEq, and_true] at e
      obtain ⟨rfl, rfl, rfl, rfl⟩ := e
      exact ⟨ha.2, hb.2, hc'.2, hd.2⟩
    · exact hc

/-- C3, amended, at the token `01.2.3.4` followed by a space. -/
theorem parse_ip4_leading_zeros_witness :
    (∃ r, parse_ip4 9 ⟨ofList (ascii "01.2.3.4 "), 8⟩ ⟨0, zeros⟩ = some r ∧
      ((noLeadingZero (ascii "01") ∧ noLeadingZero (ascii "2") ∧ noLeadingZero (ascii "3") ∧
          noLeadingZero (ascii "4")) →
        r.code = 0 ∧ r.rdata.octets = 0 + 4 ∧
        cells r.rdata.mem 0 4 = [decimalValue (ascii "01"), decimalValue (ascii "2"),
          decimalValue (ascii "3"), decimalValue (ascii "4")]) ∧
      (¬ (noLeadingZero (ascii "01") ∧ noLeadingZero (ascii "2") ∧ noLeadingZero (ascii "3") ∧
          noLeadingZero (ascii "4")) →
        r.code = ZONE_SYNTAX_ERROR)) :=
  parse_ip4_leading_zeros 9 ⟨ofList (ascii "01.2.3.4 "), 8⟩ ⟨0, zeros⟩
    (ascii "01") (ascii "2") (ascii "3") (ascii "4") (by decide) (by decide) (by decide)
    (by decide) (by decide) (by decide) (by decide)

/-- C4: round trip on canonical text. For all octets `a`, `b`, `c`, `d` in
0..255 let `s` be their shortest decimal renderings joined by dots, followed by
a delimiter that is neither a digit nor a dot. Then `parse_ip4` on the token `s`
succeeds and writes `a`, `b`, `c`, `d`, and `scan_ip4` on `s` returns 4, writes
`a`, `b`, `c`, `d` and sets `*length` to the length of `s`; rendering the decoded
octets again gives `s` back. -/
theorem ip4_round_trip (a b c d : Nat) (ha : a ≤ 255) (hb : b ≤ 255) (hc : c ≤ 255)
    (hd : d ≤ 255) (text : Nat → Nat) (len : Nat)
    (hs : textBytes text len = joinDots [decimal a, decimal b, decimal c, decimal d])
    (hdl : isDelimiter (text len)) :
    (∀ (fuel : Nat) (rdata : rdata_t), len < fuel →
      ∃ r, parse_ip4 fuel ⟨text, len⟩ rdata = some r ∧ r.code = 0 ∧
        r.rdata.octets = rdata.octets + 4 ∧
        cells r.rdata.mem rdata.octets 4 = [a, b, c, d] ∧
        joinDots ((cells r.rdata.mem rdata.octets 4).map decimal) = textBytes text len) ∧
    (∀ (fuel : Nat) (wire : Nat → Nat) (length : Nat), 4 ≤ fuel →
      ∃ r, scan_ip4 fuel text wire length = some r ∧ r.code = 4 ∧
        cells r.wire 0 4 = [a, b, c, d] ∧ r.length = len ∧
        joinDots ((cells r.wire 0 4).map decimal) = textBytes text len) := by
  obtain ⟨ga, za, va⟩ := decimal_group a ha
  obtain ⟨gb, zb, vb⟩ := decimal_group b hb
  obtain ⟨gc, zc, vc⟩ := decimal_group c hc
  obtain ⟨gd, zd, vd⟩ := decimal_group d hd
  have hlen : len = (joinDots [decimal a, decimal b, decimal c, decimal d]).length := by
    rw [← hs, textBytes, slice_length]
  constructor
  · intro fuel rdata hf
    obtain ⟨r, hr, hcode, hcells, ho, -, -⟩ := parse_ip4_of_form fuel ⟨text, len⟩ rdata
      (decimal a) (decimal b) (decimal c) (decimal d) ⟨ga, za⟩ ⟨gb, zb⟩ ⟨gc, zc⟩ ⟨gd, zd⟩
      hs hdl hf
    rw [va, vb, vc, vd] at hcells
    exact ⟨r, hr, hcode, ho, hcells, by rw [hcells, hs]; rfl⟩
  · intro fuel wire length hf
    obtain ⟨r, hr, hcode, hcells, hl, -⟩ := scan_ip4_of_greedy fuel hf text wire length
      (decimal a) (decimal b) (decimal c) (decimal d)
      ⟨ga, gb, gc, gd, by rw [← hlen]; exact hs, by rw [← hlen]; exact Or.inr hdl.1⟩
    rw [va, vb, vc, vd] at hcells
    exact ⟨r, hr, hcode, hcells, by rw [hl, ← hlen], by rw [hcells, hs]; rfl⟩

/-- C4 at the octets 192, 0, 2, 1. -/
theorem ip4_round_trip_witness :
    (∃ r, parse_ip4 10 ⟨ofList (ascii "192.0.2.1 "), 9⟩ ⟨0, zeros⟩ = some r ∧ r.code = 0 ∧
        r.rdata.octets = 0 + 4 ∧ cells r.rdata.mem 0 4 = [192, 0, 2, 1] ∧
        joinDots ((cells r.rdata.mem 0 4).map decimal)
          = textBytes (ofList (ascii "192.0.2.1 ")) 9) ∧
    (∃ r, scan_ip4 4 (ofList (ascii "192.0.2.1 ")) zeros 0 = some r ∧ r.code = 4 ∧
        cells r.wire 0 4 = [192, 0, 2, 1] ∧ r.length = 9 ∧
        joinDots ((cells r.wire 0 4).map decimal)
          = textBytes (ofList (ascii "192.0.2.1 ")) 9) :=
  ⟨(ip4_round_trip 192 0 2 1 (by decide) (by decide) (by decide) (by decide)
      (ofList (ascii "192.0.2.1 ")) 9 (by decide) (by decide)).1 10 ⟨0, zeros⟩ (by decide),
   (ip4_round_trip 192 0 2 1 (by decide) (by decide) (by decide) (by decide)
      (ofList (ascii "192.0.2.1 ")) 9 (by decide) (by decide)).2 4 zeros 0 (by decide)⟩

/-- C5: `scan_ip4` implements the greedy grammar exactly. It returns 4 if and
only if the text starts with `g1.g2.g3.g4` where each `gi` has one to three
decimal digits and value at most 255 (leading zeros allowed), `g1`, `g2`, `g3`
are each followed by a dot and `g4` is maximal (three digits, or followed by an
octet that is not a digit); in that case `wire[0..3]` hold the four group values
in order and `*length` is the number of characters consumed,
`|g1|+|g2|+|g3|+|g4|+3`, between 7 and 15. In every other case it returns -1. -/
theorem scan_ip4_greedy (fuel : Nat) (hf : 4 ≤ fuel) (text wire : Nat → Nat) (length : Nat) :
    ∃ r, scan_ip4 fuel text wire length = some r ∧
      (r.code = 4 ↔ ∃ g1 g2 g3 g4, greedyAddress text g1 g2 g3 g4) ∧
      (∀ g1 g2 g3 g4, greedyAddress text g1 g2 g3 g4 →
        cells r.wire 0 4
          = [decimalValue g1, decimalValue g2, decimalValue g3, decimalValue g4] ∧
        r.length = g1.length + g2.length + g3.length + g4.length + 3 ∧
        7 ≤ r.length ∧ r.length ≤ 15) ∧
      (r.code ≠ 4 → r.code = -1) := by
  obtain ⟨r, hr, -, hcode, -⟩ := scan_ip4_total fuel hf text wire length
  refine ⟨r, hr, ⟨fun hc => scan_ip4_greedy_of_accept fuel text wire length r hr hc, ?_⟩, ?_, ?_⟩
  · rintro ⟨g1, g2, g3, g4, h⟩
    obtain ⟨r', hr', hc', -⟩ := scan_ip4_of_greedy fuel hf text wire length g1 g2 g3 g4 h
    rw [hr] at hr'
    simp only [Option.some.injEq] at hr'
    rw [hr']; exact hc'
  · intro g1 g2 g3 g4 h
    obtain ⟨r', hr', -, hcells, hl, -⟩ :=
      scan_ip4_of_greedy fuel hf text wire length g1 g2 g3 g4 h
    rw [hr] at hr'
    simp only [Option.some.injEq] at hr'
    subst hr'
    rw [joinDots_four_length] at hl
    obtain ⟨⟨a1, a3, -⟩, ⟨b1, b3, -⟩, ⟨c1, c3, -⟩, ⟨d1, d3, -⟩, -⟩ := h
    exact ⟨hcells, hl, by omega, by omega⟩
  · intro hne
    rcases hcode with h | h
    · exact absurd h hne
    · exact h

/-- C5 at the text `10.020.255.7x`. -/
theorem scan_ip4_greedy_witness :
    ∃ r, scan_ip4 4 (ofList (ascii "10.020.255.7x")) zeros 0 = some r ∧
      (r.code = 4 ↔ ∃ g1 g2 g3 g4, greedyAddress (ofList (ascii "10.020.255.7x")) g1 g2 g3 g4) ∧
      (∀ g1 g2 g3 g4, greedyAddress (ofList (ascii "10.020.255.7x")) g1 g2 g3 g4 →
        cells r.wire 0 4
          = [decimalValue g1, decimalValue g2, decimalValue g3, decimalValue g4] ∧
        r.length = g1.length + g2.length + g3.length + g4.length + 3 ∧
        7 ≤ r.length ∧ r.length ≤ 15) ∧
      (r.code ≠ 4 → r.code = -1) :=
  scan_ip4_greedy 4 (by decide) (ofList (ascii "10.020.255.7x")) zeros 0

/-- C6, as the claim states it, fails: on `1.2.3.4.5` and on `1.2.3.1234`
`scan_ip4` returns 4, with `*length` 7 and 9, and not -1. -/
theorem scan_ip4_accepts_trailing :
    (scan_ip4 4 (ofList (ascii "1.2.3.4.5 ")) zeros 0).map
        (fun r => (r.code, r.length, cells r.wire 0 4)) = some (4, 7, [1, 2, 3, 4]) ∧
    (scan_ip4 4 (ofList (ascii "1.2.3.1234 ")) zeros 0).map
        (fun r => (r.code, r.length, cells r.wire 0 4)) = some (4, 9, [1, 2, 3, 123]) := by
  decide

/-- C6, amended: `scan_ip4` does not look at what follows the fourth group.
For every text that starts with four dot-separated groups of one to three
digits and value at most 255, the fourth of three digits or followed by an
octet that is not a digit, `scan_ip4` returns 4 whatever follows, and `*length`
is the length of the four groups with their dots, so that a trailing character
shows only as a `*length` short of the end of the field. -/
theorem scan_ip4_ignores_trailing (fuel : Nat) (hf : 4 ≤ fuel) (text wire : Nat → Nat)
    (length : Nat) (g1 g2 g3 g4 : List Nat) (h : greedyAddress text g1 g2 g3 g4) :
    ∃ r, scan_ip4 fuel text wire length = some r ∧ r.code = 4 ∧
      r.length = (joinDots [g1, g2, g3, g4]).length ∧
      cells r.wire 0 4
        = [decimalValue g1, decimalValue g2, decimalValue g3, decimalValue g4] := by
  obtain ⟨r, hr, hc, hcells, hl, -⟩ := scan_ip4_of_greedy fuel hf text wire length g1 g2 g3 g4 h
  exact ⟨r, hr, hc, hl, hcells⟩

/-- C6, amended, at the text `1.2.3.4.5`. -/
theorem scan_ip4_ignores_trailing_witness :
    ∃ r, scan_ip4 4 (ofList (ascii "1.2.3.4.5 ")) zeros 0 = some r ∧ r.code = 4 ∧
      r.length = (joinDots [ascii "1", ascii "2", ascii "3", ascii "4"]).length ∧
      cells r.wire 0 4 = [decimalValue (ascii "1"), decimalValue (ascii "2"),
        decimalValue (ascii "3"), decimalValue (ascii "4")] :=
  scan_ip4_ignores_trailing 4 (by decide) (ofList (ascii "1.2.3.4.5 ")) zeros 0
    (ascii "1") (ascii "2") (ascii "3") (ascii "4") (by decide)

/-- C7: neither decoder writes past four destination octets, on any input.
Whatever the text and the fuel, when `parse_ip4` returns, every cell of the
destination outside the offsets 0..3 from the rdata cursor is unchanged, and
when `scan_ip4` returns, every cell of `wire` from index 4 on is unchanged. -/
theorem ip4_writes_four_octets :
    (∀ (fuel : Nat) (token : token_t) (rdata : rdata_t) (r : parse_result),
      parse_ip4 fuel token rdata = some r →
      ∀ i, (i < rdata.octets ∨ rdata.octets + 4 ≤ i) → r.rdata.mem i = rdata.mem i) ∧
    (∀ (fuel : Nat) (text wire : Nat → Nat) (length : Nat) (r : scan_result),
      scan_ip4 fuel text wire length = some r → ∀ i, 4 ≤ i → r.wire i = wire i) :=
  ⟨fun fuel token rdata r h i hi => parse_ip4_frame fuel token rdata r h i hi,
   fun fuel text wire length r h i hi => scan_ip4_frame fuel text wire length r h i hi⟩

/-- C7 at the text `1.2.3.4.5.6`, with the rdata cursor at 2 for `parse_ip4`. -/
theorem ip4_writes_four_octets_witness :
    Function.update (Function.update (Function.update (Function.update
      (Function.update zeros 2 0) 2 1) 3 2) 4 3) 5 4 6 = zeros 6 ∧
    Function.update (Function.update (Function.update (Function.update
      zeros 0 1) 1 2) 2 3) 3 4 4 = zeros 4 :=
  ⟨ip4_writes_four_octets.1 12 ⟨ofList (ascii "1.2.3.4.5.6 "), 11⟩ ⟨2, zeros⟩
      ⟨ZONE_SYNTAX_ERROR, ⟨2, Function.update (Function.update (Function.update
        (Function.update (Function.update zeros 2 0) 2 1) 3 2) 4 3) 5 4⟩, 9,
        [0, 1, 1, 2, 3, 3, 4, 5, 5, 6, 7, 7, 8, 9], [1, 1, 1, 1, 1]⟩ rfl 6 (Or.inr (by decide)),
   ip4_writes_four_octets.2 4 (ofList (ascii "1.2.3.4.5.6 ")) zeros 0
      ⟨4, Function.update (Function.update (Function.update (Function.update
        zeros 0 1) 1 2) 2 3) 3 4, 7, [0, 1, 2, 1, 2, 3, 4, 3, 4, 5, 6, 5, 6, 7, 8, 7], 4⟩
      rfl 4 (by decide)⟩

/-- C8: `parse_ip4` does not read past the token's bounds. For every token whose
octet at index `token.length` is neither a decimal digit nor a dot, `parse_ip4`
returns once the fuel exceeds `token.length`, and whenever it returns, with
success or with a syntax error, it has loaded only octets at the indices
`0..token.length` of `token.data`. -/
theorem parse_ip4_reads_in_token (token : token_t) (rdata : rdata_t)
    (hdl : isDelimiter (token.data token.length)) :
    (∀ (fuel : Nat), token.length < fuel → ∃ r, parse_ip4 fuel token rdata = some r) ∧
    (∀ (fuel : Nat) (r : parse_result), parse_ip4 fuel token rdata = some r →
      ∀ i ∈ r.reads, i ≤ token.length) :=
  ⟨fun fuel hf => parse_ip4_returns fuel token rdata token.length hdl hf,
   fun fuel r h => (parse_ip4_reads fuel token rdata r h token.length hdl).2⟩

/-- C8 at the tokens `1.2.3.4` and `1234567`, each followed by a space. -/
theorem parse_ip4_reads_in_token_witness :
    (∃ r, parse_ip4 8 ⟨ofList (ascii "1.2.3.4 "), 7⟩ ⟨0, zeros⟩ = some r) ∧
    (∀ i ∈ [0, 1, 2, 3, 4, 5, 6, 7], i ≤ 7) :=
  ⟨(parse_ip4_reads_in_token ⟨ofList (ascii "1.2.3.4 "), 7⟩ ⟨0, zeros⟩ (by decide)).1 8
      (by decide),
   (parse_ip4_reads_in_token ⟨ofList (ascii "1234567 "), 7⟩ ⟨0, zeros⟩ (by decide)).2 8
      ⟨ZONE_SYNTAX_ERROR, ⟨0, Function.update zeros 0 0⟩, 7, [0, 1, 2, 3, 4, 5, 6, 7], []⟩ rfl⟩

/-- C9, as the claim states it, fails: on the eight octets `1.2.3.4` and a
space, which end with their delimiter at index 7, `scan_ip4` returns 4 after
having loaded the octet at index 8, behind the sequence. -/
theorem scan_ip4_reads_past_delimiter :
    (ascii "1.2.3.4 ").length = 8 ∧ isDelimiter (ofList (ascii "1.2.3.4 ") 7) ∧
    (scan_ip4 4 (ofList (ascii "1.2.3.4 ")) zeros 0).map
        (fun r => (r.code, r.reads.filter (fun i => decide ((ascii "1.2.3.4 ").length ≤ i))))
      = some (4, [8]) := by
  decide

/-- C9, amended: `scan_ip4` loads three octets in every round without looking
for the end of the field, and so reads at most two octets beyond the delimiter.
For every text that holds a delimiter (an octet that is neither a decimal digit
nor a dot) at index `k`, `scan_ip4` returns within four rounds, and every index
it loads is at most `k + 2`, whether it succeeds or fails. -/
theorem scan_ip4_reads_bound (text wire : Nat → Nat) (length k : Nat)
    (hk : isDelimiter (text k)) :
    (∀ (fuel : Nat), 4 ≤ fuel → ∃ r, scan_ip4 fuel text wire length = some r) ∧
    (∀ (fuel : Nat) (r : scan_result), scan_ip4 fuel text wire length = some r →
      ∀ i ∈ r.reads, i ≤ k + 2) := by
  constructor
  · intro fuel hf
    obtain ⟨r, hr, -⟩ := scan_ip4_total fuel hf text wire length
    exact ⟨r, hr⟩
  · intro fuel r h
    exact scan_ip4_reads fuel text wire length r h k hk

/-- C9, amended, at the text `1.2.3.4` followed by a space. -/
theorem scan_ip4_reads_bound_witness :
    (∃ r, scan_ip4 4 (ofList (ascii "1.2.3.4 ")) zeros 0 = some r) ∧
    (∀ i ∈ [0, 1, 2, 1, 2, 3, 4, 3, 4, 5, 6, 5, 6, 7, 8, 7], i ≤ 7 + 2) :=
  ⟨(scan_ip4_reads_bound (ofList (ascii "1.2.3.4 ")) zeros 0 7 (by decide)).1 4 (by decide),
   (scan_ip4_reads_bound (ofList (ascii "1.2.3.4 ")) zeros 0 7 (by decide)).2 4
      ⟨4, Function.update (Function.update (Function.update (Function.update
        zeros 0 1) 1 2) 2 3) 3 4, 7, [0, 1, 2, 1, 2, 3, 4, 3, 4, 5, 6, 5, 6, 7, 8, 7], 4⟩ rfl⟩

/-- C10: both decoders are total over malformed input. `scan_ip4` returns after
at most four loop rounds on every text (four units of fuel are enough, and at
most four octets are stored). `parse_ip4` returns, with success or with a syntax
error, on every text that holds at some index `k` an octet that is neither a
decimal digit nor a dot, as soon as the fuel exceeds `k`, and it neither moves
`p` nor loads an octet beyond `k`; `k` may be the first such index. -/
theorem ip4_decoders_total :
    (∀ (fuel : Nat) (text wire : Nat → Nat) (length : Nat), 4 ≤ fuel →
      ∃ r, scan_ip4 fuel text wire length = some r ∧ (r.code = 4 ∨ r.code = -1) ∧
        r.round ≤ 4) ∧
    (∀ (fuel : Nat) (token : token_t) (rdata : rdata_t) (k : Nat),
      isDelimiter (token.data k) → k < fuel →
      ∃ r, parse_ip4 fuel token rdata = some r ∧ (r.code = 0 ∨ r.code = ZONE_SYNTAX_ERROR) ∧
        r.p ≤ k ∧ ∀ i ∈ r.reads, i ≤ k) := by
  constructor
  · intro fuel text wire length hf
    obtain ⟨r, hr, h4, hc, -⟩ := scan_ip4_total fuel hf text wire length
    exact ⟨r, hr, hc, h4⟩
  · intro fuel token rdata k hk hf
    obtain ⟨r, hr⟩ := parse_ip4_returns fuel token rdata k hk hf
    obtain ⟨h1, h2⟩ := parse_ip4_reads fuel token rdata r hr k hk
    exact ⟨r, hr, parse_ip4_code fuel token rdata r hr, h1, h2⟩

/-- C10 at a text of twelve nines for `scan_ip4` and at `1.2.3.4x5.6.7.8.9` for `parse_ip4`. -/
theorem ip4_decoders_total_witness :
    (∃ r, scan_ip4 4 (ofList (ascii "999999999999")) zeros 0 = some r ∧
      (r.code = 4 ∨ r.code = -1) ∧ r.round ≤ 4) ∧
    (∃ r, parse_ip4 8 ⟨ofList (ascii "1.2.3.4x5.6.7.8.9"), 17⟩ ⟨0, zeros⟩ = some r ∧
      (r.code = 0 ∨ r.code = ZONE_SYNTAX_ERROR) ∧ r.p ≤ 7 ∧ ∀ i ∈ r.reads, i ≤ 7) :=
  ⟨ip4_decoders_total.1 4 (ofList (ascii "999999999999")) zeros 0 (by decide),
   ip4_decoders_total.2 8 ⟨ofList (ascii "1.2.3.4x5.6.7.8.9"), 17⟩ ⟨0, zeros⟩ 7
      (by decide) (by decide)⟩

/-! ## The claims on the status codes, the tape and the cursor -/

/-- What `parse_ip4` returns and where it leaves the cursor: 0 with the cursor
moved on by four, or `ZONE_SYNTAX_ERROR` with the cursor where it was. -/
theorem parse_ip4_cursor (fuel : Nat) (token : token_t) (rdata : rdata_t) (r : parse_result)
    (h : parse_ip4 fuel token rdata = some r) :
    (r.code = 0 ∧ r.rdata.octets = rdata.octets + 4) ∨
    (r.code = ZONE_SYNTAX_ERROR ∧ r.rdata.octets = rdata.octets) := by
  unfold parse_ip4 at h
  simp only [] at h
  split at h
  · simp at h
  · simp only [Option.some.injEq] at h
    subst h
    exact Or.inr ⟨rfl, rfl⟩
  · split_ifs at h
    · simp only [Option.some.injEq] at h
      subst h
      exact Or.inr ⟨rfl, rfl⟩
    · simp only [Option.some.injEq] at h
      subst h
      exact Or.inl ⟨rfl, rfl⟩

/-- C11, as the claim states it, fails: on the token `1.2.3.4` followed by a
space `parse_ip4` succeeds, stores 01 02 03 04 and returns 0, not the number 4
of octets written. -/
theorem parse_ip4_returns_zero :
    (parse_ip4 8 ⟨ofList (ascii "1.2.3.4 "), 7⟩ ⟨0, zeros⟩).map
        (fun r => (r.code, r.rdata.octets, cells r.rdata.mem 0 4))
      = some (0, 4, [1, 2, 3, 4]) := by
  decide

/-- C11, amended: `parse_ip4` returns a status code and never a count of octets.
Whenever it returns, the value is `ZONE_SUCCESS` (0) on success, and then the
four octets written are reported by the rdata cursor, which is advanced by 4, or
the negative code `ZONE_SYNTAX_ERROR` on failure; the value is never 4. -/
theorem parse_ip4_status (fuel : Nat) (token : token_t) (rdata : rdata_t) (r : parse_result)
    (h : parse_ip4 fuel token rdata = some r) :
    r.code ≠ 4 ∧
    ((r.code = ZONE_SUCCESS ∧ r.rdata.octets = rdata.octets + 4) ∨
     (r.code = ZONE_SYNTAX_ERROR ∧ r.code < 0)) := by
  rcases parse_ip4_cursor fuel token rdata r h with ⟨hc, ho⟩ | ⟨hc, -⟩
  · exact ⟨by rw [hc]; decide, Or.inl ⟨hc, ho⟩⟩
  · exact ⟨by rw [hc]; decide, Or.inr ⟨hc, by rw [hc]; decide⟩⟩

/-- C11, amended, at the tokens `1.2.3.4` (accepted) and `1.2.3` (rejected),
each followed by a space. -/
theorem parse_ip4_status_witness :
    ((0 : Int) ≠ 4 ∧ (((0 : Int) = ZONE_SUCCESS ∧ 0 + 4 = 0 + 4) ∨
      ((0 : Int) = ZONE_SYNTAX_ERROR ∧ (0 : Int) < 0))) ∧
    (ZONE_SYNTAX_ERROR ≠ 4 ∧ ((ZONE_SYNTAX_ERROR = ZONE_SUCCESS ∧ 0 = 0 + 4) ∨
      (ZONE_SYNTAX_ERROR = ZONE_SYNTAX_ERROR ∧ ZONE_SYNTAX_ERROR < 0))) :=
  ⟨parse_ip4_status 8 ⟨ofList (ascii "1.2.3.4 "), 7⟩ ⟨0, zeros⟩
      ⟨0, ⟨0 + 4, Function.update (Function.update (Function.update (Function.update
        (Function.update zeros 0 0) 0 1) 1 2) 2 3) 3 4⟩, 7,
        [0, 1, 1, 2, 3, 3, 4, 5, 5, 6, 7, 7], [1, 1, 1, 1]⟩ rfl,
   parse_ip4_status 8 ⟨ofList (ascii "1.2.3 "), 5⟩ ⟨0, zeros⟩
      ⟨ZONE_SYNTAX_ERROR, ⟨0, Function.update (Function.update (Function.update
        (Function.update zeros 0 0) 0 1) 1 2) 2 3⟩, 5,
        [0, 1, 1, 2, 3, 3, 4, 5, 5], [1, 1, 1]⟩ rfl⟩

/-- C12: the seven status codes `ZONE_SUCCESS`, `ZONE_SYNTAX_ERROR`,
`ZONE_SEMANTIC_ERROR`, `ZONE_OUT_OF_MEMORY`, `ZONE_BAD_PARAMETER`,
`ZONE_READ_ERROR` and `ZONE_NOT_IMPLEMENTED` are pairwise distinct integers;
success is 0 and every error code is negative. -/
theorem zone_codes_distinct :
    [ZONE_SUCCESS, ZONE_SYNTAX_ERROR, ZONE_SEMANTIC_ERROR, ZONE_OUT_OF_MEMORY,
      ZONE_BAD_PARAMETER, ZONE_READ_ERROR, ZONE_NOT_IMPLEMENTED].Pairwise (fun a b => a ≠ b) ∧
    ZONE_SUCCESS = 0 ∧
    ZONE_SYNTAX_ERROR < 0 ∧ ZONE_SEMANTIC_ERROR < 0 ∧ ZONE_OUT_OF_MEMORY < 0 ∧
    ZONE_BAD_PARAMETER < 0 ∧ ZONE_READ_ERROR < 0 ∧ ZONE_NOT_IMPLEMENTED < 0 := by
  decide

/-- C13: the tape capacity `ZONE_TAPE_SIZE` is at least twice the number of
tokens one block can produce, one for each of the `ZONE_BLOCK_SIZE` = 64 octets
of a block, and the array `tape` holds `ZONE_TAPE_SIZE + 1` entries, one more
than the capacity, so that a terminator fits behind the tokens of a worst-case
read. -/
theorem zone_tape_capacity :
    ZONE_BLOCK_SIZE = 64 ∧ 2 * ZONE_BLOCK_SIZE ≤ ZONE_TAPE_SIZE ∧
    tape_entries = ZONE_TAPE_SIZE + 1 ∧ ZONE_BLOCK_SIZE + 1 ≤ tape_entries ∧
    ZONE_TAPE_SIZE = 12800 := by
  decide

/-- C14: failure reports no progress. Whenever `parse_ip4` reports a syntax
error the rdata cursor is where it was on entry; the cursor moves, by exactly 4,
only on the success path. Only the cursor is preserved: the octets at the
offsets 0..3 from the cursor, and no others, may differ from what they were, and
on the token `1.2.3.4.5` all four of them are overwritten before the error is
reported. -/
theorem parse_ip4_failure_keeps_cursor :
    (∀ (fuel : Nat) (token : token_t) (rdata : rdata_t) (r : parse_result),
      parse_ip4 fuel token rdata = some r →
      (r.code = ZONE_SYNTAX_ERROR → r.rdata.octets = rdata.octets) ∧
      (r.rdata.octets ≠ rdata.octets → r.code = 0 ∧ r.rdata.octets = rdata.octets + 4) ∧
      (∀ i, (i < rdata.octets ∨ rdata.octets + 4 ≤ i) → r.rdata.mem i = rdata.mem i)) ∧
    (parse_ip4 10 ⟨ofList (ascii "1.2.3.4.5 "), 9⟩ ⟨0, fun _ => 255⟩).map
        (fun r => (r.code, r.rdata.octets, cells r.rdata.mem 0 5))
      = some (ZONE_SYNTAX_ERROR, 0, [1, 2, 3, 4, 255]) := by
  refine ⟨?_, by decide⟩
  intro fuel token rdata r h
  refine ⟨?_, ?_, fun i hi => parse_ip4_frame fuel token rdata r h i hi⟩
  · intro hc
    rcases parse_ip4_cursor fuel token rdata r h with ⟨h0, -⟩ | ⟨-, ho⟩
    · rw [h0] at hc
      exact absurd hc (by decide)
    · exact ho
  · intro hne
    rcases parse_ip4_cursor fuel token rdata r h with ⟨h0, ho⟩ | ⟨-, ho⟩
    · exact ⟨h0, ho⟩
    · exact absurd ho hne

/-- C14 at the token `1.2.3` followed by a space, with the cursor at 2. -/
theorem parse_ip4_failure_keeps_cursor_witness :
    (ZONE_SYNTAX_ERROR = ZONE_SYNTAX_ERROR → 2 = 2) ∧
    (2 ≠ 2 → ZONE_SYNTAX_ERROR = 0 ∧ 2 = 2 + 4) ∧
    (∀ i, (i < 2 ∨ 2 + 4 ≤ i) →
      Function.update (Function.update (Function.update
        (Function.update zeros 2 0) 2 1) 3 2) 4 3 i = zeros i) :=
  parse_ip4_failure_keeps_cursor.1 8 ⟨ofList (ascii "1.2.3 "), 5⟩ ⟨2, zeros⟩
    ⟨ZONE_SYNTAX_ERROR, ⟨2, Function.update (Function.update (Function.update
      (Function.update zeros 2 0) 2 1) 3 2) 4 3⟩, 5,
      [0, 1, 1, 2, 3, 3, 4, 5, 5], [1, 1, 1]⟩ rfl

/-! ## The claims that relate the two decoders -/

/-- Four rounds of fuel are used when the loop of `scan_ip4` breaks in round
four. -/
theorem scan_ip4_loop_fuel (text : Nat → Nat) :
    ∀ (fuel : Nat) (s s' : scan_state),
      scan_ip4_loop text fuel s = some (.broke, s') → s'.round = 4 → s.round < 4 →
      4 - s.round ≤ fuel := by
  intro fuel
  induction fuel with
  | zero => intro s s' h; simp [scan_ip4_loop] at h
  | succ fuel ih =>
    intro s s' h h4 hlt
    rw [scan_ip4_loop_succ] at h
    split_ifs at h with c0 c1 c2
    · simp at h
    · simp at h
    · simp only [Option.some.injEq, Prod.mk.injEq, true_and] at h
      subst h
      simp only [] at h4
      omega
    · have hround : s.round + 1 < 4 := by
        have : ¬ (s.round + 1 = 4) := fun h => c2 (Or.inr h)
        omega
      have := ih _ s' h h4 hround
      simp only [] at this
      omega

theorem scan_ip4_accept_fuel (fuel : Nat) (text wire : Nat → Nat) (length : Nat)
    (r : scan_result) (h : scan_ip4 fuel text wire length = some r) (hc : r.code = 4) :
    4 ≤ fuel := by
  unfold scan_ip4 at h
  split at h
  · simp at h
  · simp only [Option.some.injEq] at h
    subst h
    simp at hc
  · rename_i s he
    split_ifs at h with h4
    · simp only [Option.some.injEq] at h
      subst h
      simp at hc
    · have h4 : s.round = 4 := by simpa using h4
      have := scan_ip4_loop_fuel text fuel _ s he h4 (by simp)
      simpa using this

/-- C15: `parse_ip4` is at least as strict as `scan_ip4`. For every token that
`parse_ip4` accepts, `scan_ip4` on the same text returns 4, sets `*length` to
`token.length` and writes the four octets that `parse_ip4` wrote. Conversely,
for every text on which `scan_ip4` returns 4 with `*length = L`, when no group
among the first `L` octets has a superfluous leading zero and the octet at index
`L` is neither a digit nor a dot, `parse_ip4` on the token of length `L` succeeds
with the same octets. -/
theorem parse_ip4_refines_scan_ip4 :
    (∀ (fuel : Nat) (token : token_t) (rdata : rdata_t) (r : parse_result),
      parse_ip4 fuel token rdata = some r → r.code = 0 →
      ∀ (fuel' : Nat) (wire : Nat → Nat) (length : Nat), 4 ≤ fuel' →
      ∃ r', scan_ip4 fuel' token.data wire length = some r' ∧ r'.code = 4 ∧
        r'.length = token.length ∧
        cells r'.wire 0 4 = cells r.rdata.mem rdata.octets 4) ∧
    (∀ (fuel : Nat) (text wire : Nat → Nat) (length : Nat) (r : scan_result),
      scan_ip4 fuel text wire length = some r → r.code = 4 →
      (∀ g ∈ splitDots (textBytes text r.length), noLeadingZero g) →
      isDelimiter (text r.length) →
      ∀ (fuel' : Nat) (rdata : rdata_t), r.length < fuel' →
      ∃ r', parse_ip4 fuel' ⟨text, r.length⟩ rdata = some r' ∧ r'.code = 0 ∧
        r'.rdata.octets = rdata.octets + 4 ∧
        cells r'.rdata.mem rdata.octets 4 = cells r.wire 0 4) := by
  constructor
  · intro fuel token rdata r h hc fuel' wire length hf
    obtain ⟨g1, g2, g3, g4, h1, h2, h3, h4, hs, hdl, hcells, -, -⟩ :=
      parse_ip4_accept_form fuel token rdata r h hc
    have hlen : token.length = (joinDots [g1, g2, g3, g4]).length := by
      rw [← hs, textBytes, slice_length]
    obtain ⟨r', hr', hc', hcells', hl', -⟩ := scan_ip4_of_greedy fuel' hf token.data wire length
      g1 g2 g3 g4
      ⟨h1.1, h2.1, h3.1, h4.1, by rw [← hlen]; exact hs, by rw [← hlen]; exact Or.inr hdl.1⟩
    exact ⟨r', hr', hc', by rw [hl', hlen], by rw [hcells', hcells]⟩
  · intro fuel text wire length r h hc hz hdl fuel' rdata hf
    obtain ⟨g1, g2, g3, g4, hg⟩ := scan_ip4_greedy_of_accept fuel text wire length r h hc
    have hfuel := scan_ip4_accept_fuel fuel text wire length r h hc
    obtain ⟨r0, hr0, -, hcells0, hl0, -⟩ :=
      scan_ip4_of_greedy fuel hfuel text wire length g1 g2 g3 g4 hg
    rw [h] at hr0
    simp only [Option.some.injEq] at hr0
    subst hr0
    obtain ⟨h1, h2, h3, h4, hs, -⟩ := hg
    rw [← hl0] at hs
    rw [hs, splitDots_joinDots g1 g2 g3 g4 h1 h2 h3 h4] at hz
    obtain ⟨r', hr', hc', hcells', ho', -, -⟩ := parse_ip4_of_form fuel' ⟨text, r.length⟩ rdata
      g1 g2 g3 g4 ⟨h1, hz g1 (by simp)⟩ ⟨h2, hz g2 (by simp)⟩ ⟨h3, hz g3 (by simp)⟩
      ⟨h4, hz g4 (by simp)⟩ hs hdl hf
    exact ⟨r', hr', hc', ho', by rw [hcells', hcells0]⟩

/-- C15 at the text `192.0.2.1` followed by a space, in both directions. -/
theorem parse_ip4_refines_scan_ip4_witness :
    (∃ r', scan_ip4 4 (ofList (ascii "192.0.2.1 ")) zeros 0 = some r' ∧ r'.code = 4 ∧
      r'.length = 9 ∧
      cells r'.wire 0 4 = cells (Function.update (Function.update (Function.update
        (Function.update (Function.update zeros 0 0) 0 192) 1 0) 2 2) 3 1) 0 4) ∧
    (∃ r', parse_ip4 10 ⟨ofList (ascii "192.0.2.1 "), 9⟩ ⟨0, zeros⟩ = some r' ∧ r'.code = 0 ∧
      r'.rdata.octets = 0 + 4 ∧
      cells r'.rdata.mem 0 4 = cells (Function.update (Function.update (Function.update
        (Function.update zeros 0 192) 1 0) 2 2) 3 1) 0 4) :=
  ⟨parse_ip4_refines_scan_ip4.1 10 ⟨ofList (ascii "192.0.2.1 "), 9⟩ ⟨0, zeros⟩
      ⟨0, ⟨0 + 4, Function.update (Function.update (Function.update (Function.update
          (Function.update zeros 0 0) 0 192) 1 0) 2 2) 3 1⟩, 9,
        [0, 1, 2, 3, 3, 4, 5, 5, 6, 7, 7, 8, 9, 9], [3, 1, 1, 1]⟩ rfl rfl 4 zeros 0 (by decide),
   parse_ip4_refines_scan_ip4.2 4 (ofList (ascii "192.0.2.1 ")) zeros 0
      ⟨4, Function.update (Function.update (Function.update (Function.update
        zeros 0 192) 1 0) 2 2) 3 1, 9,
        [0, 1, 2, 3, 4, 5, 6, 5, 6, 7, 8, 7, 8, 9, 10, 9], 4⟩ rfl rfl (by decide) (by decide)
      10 ⟨0, zeros⟩ (by decide)⟩

theorem slice_congr (text1 text2 : Nat → Nat) (pos len : Nat)
    (h : ∀ i, pos ≤ i → i < pos + len → text2 i % 256 = text1 i % 256) :
    slice text2 pos len = slice text1 pos len := by
  induction len generalizing pos with
  | zero => rfl
  | succ len ih =>
    simp only [slice]
    rw [h pos (by omega) (by omega), ih (pos + 1) (fun i h1 h2 => h i (by omega) (by omega))]

/-- The run of digits at a position up to a delimiter depends only on the
octets up to that delimiter. -/
theorem runLen_congr (text1 text2 : Nat → Nat) (k : Nat) (hk : isDelimiter (text1 k))
    (hag : ∀ i, i ≤ k → text2 i % 256 = text1 i % 256) (pos : Nat) (hp : pos ≤ k) :
    runLen text2 pos = runLen text1 pos := by
  have e0 := hag pos hp
  unfold runLen
  rw [e0]
  by_cases c0 : isDigit (text1 pos % 256)
  · have h1 : pos + 1 ≤ k := by
      rcases Nat.lt_or_ge pos k with h | h
      · omega
      · have : pos = k := by omega
        rw [this] at c0
        exact absurd c0 hk.1
    rw [hag (pos + 1) h1]
    by_cases c1 : isDigit (text1 (pos + 1) % 256)
    · have h2 : pos + 2 ≤ k := by
        rcases Nat.lt_or_ge (pos + 1) k with h | h
        · omega
        · have : pos + 1 = k := by omega
          rw [this] at c1
          exact absurd c1 hk.1
      rw [hag (pos + 2) h2]
    · simp [c0, c1]
  · simp [c0]

theorem runVal_congr (text1 text2 : Nat → Nat) (k : Nat) (hk : isDelimiter (text1 k))
    (hag : ∀ i, i ≤ k → text2 i % 256 = text1 i % 256) (pos : Nat) (hp : pos ≤ k) :
    runVal text2 pos = runVal text1 pos := by
  have hr := runLen_le_delimiter text1 pos k hk hp
  unfold runVal
  rw [runLen_congr text1 text2 k hk hag pos hp,
    slice_congr text1 text2 pos _ (fun i _ h2 => hag i (by omega))]

/-- The loop of `scan_ip4` runs alike on two texts that agree up to a
delimiter. -/
theorem scan_ip4_loop_congr (text1 text2 : Nat → Nat) (k : Nat) (hk : isDelimiter (text1 k))
    (hag : ∀ i, i ≤ k → text2 i % 256 = text1 i % 256) :
    ∀ (fuel : Nat) (s : scan_state), s.text ≤ k →
      scan_ip4_loop text2 fuel s = scan_ip4_loop text1 fuel s := by
  intro fuel
  induction fuel with
  | zero => intro s _; rfl
  | succ fuel ih =>
    intro s hp
    have hr := runLen_le_delimiter text1 s.text k hk hp
    rw [scan_ip4_loop_succ, scan_ip4_loop_succ, runLen_congr text1 text2 k hk hag s.text hp,
      runVal_congr text1 text2 k hk hag s.text hp, hag _ hr]
    split_ifs with c0 c1 c2
    · rfl
    · rfl
    · rfl
    · have hdot : text1 (s.text + runLen text1 s.text) % 256 = 46 := by
        by_contra hne
        exact c2 (Or.inl hne)
      exact ih _ (dot_lt_delimiter text1 _ k hk hr hdot)

/-- C16: the octets that `scan_ip4` loads ahead do not influence its result.
For any two texts that agree on every octet up to and including an octet that
is neither a decimal digit nor a dot (the first such octet in particular),
`scan_ip4` gives the same result: the same return value, the same octets in
`wire`, the same `*length`; and it returns on both with four units of fuel. The
octets behind the delimiter are free to differ, though each round loads
`text[0]`, `text[1]` and `text[2]`. -/
theorem scan_ip4_lookahead (text1 text2 : Nat → Nat) (k : Nat) (hk : isDelimiter (text1 k))
    (hag : ∀ i, i ≤ k → text2 i % 256 = text1 i % 256) (wire : Nat → Nat) (length : Nat) :
    (∀ (fuel : Nat), scan_ip4 fuel text2 wire length = scan_ip4 fuel text1 wire length) ∧
    (∀ (fuel : Nat), 4 ≤ fuel → ∃ r, scan_ip4 fuel text1 wire length = some r ∧
      scan_ip4 fuel text2 wire length = some r) := by
  have key : ∀ (fuel : Nat),
      scan_ip4 fuel text2 wire length = scan_ip4 fuel text1 wire length := by
    intro fuel
    unfold scan_ip4
    rw [scan_ip4_loop_congr text1 text2 k hk hag fuel _ (by simp)]
  refine ⟨key, ?_⟩
  intro fuel hf
  obtain ⟨r, hr, -⟩ := scan_ip4_total fuel hf text1 wire length
  exact ⟨r, hr, by rw [key fuel, hr]⟩

/-- C16 at the texts `1.2.3.4 ` with `99` and with `.5` behind the space: the
fourth round loads the octet at index 8, where the two differ. -/
theorem scan_ip4_lookahead_witness :
    (ofList (ascii "1.2.3.4 .5") 8 ≠ ofList (ascii "1.2.3.4 99") 8) ∧
    (∃ r, scan_ip4 4 (ofList (ascii "1.2.3.4 99")) zeros 0 = some r ∧
      scan_ip4 4 (ofList (ascii "1.2.3.4 .5")) zeros 0 = some r) :=
  ⟨by decide,
   (scan_ip4_lookahead (ofList (ascii "1.2.3.4 99")) (ofList (ascii "1.2.3.4 .5")) 7
      (by decide) (by decide) zeros 0).2 4 (by decide)⟩

/-! ## The claims on the groups of `parse_ip4` -/

/-- A text of four groups of at most three octets each, separated by dots, has
a dot in every window of four octets. -/
theorem joinDots_window (data : Nat → Nat) (len : Nat) (g1 g2 g3 g4 : List Nat)
    (h1 : g1.length ≤ 3) (h2 : g2.length ≤ 3) (h3 : g3.length ≤ 3) (h4 : g4.length ≤ 3)
    (hs : textBytes data len = joinDots [g1, g2, g3, g4]) (i : Nat) (hi : i + 4 ≤ len) :
    ∃ j, j < 4 ∧ data (i + j) % 256 = 46 := by
  have hlen : len = (joinDots [g1, g2, g3, g4]).length := by
    rw [← hs, textBytes, slice_length]
  have hl := joinDots_four_length g1 g2 g3 g4
  have e : joinDots [g1, g2, g3, g4] = g1 ++ 46 :: (g2 ++ 46 :: (g3 ++ 46 :: g4)) := rfl
  rw [textBytes, hlen, e] at hs
  obtain ⟨-, t1⟩ := (slice_eq_append data 0 g1 _).1 hs
  obtain ⟨d1, t1⟩ := (slice_eq_cons data _ 46 _).1 t1
  obtain ⟨-, t2⟩ := (slice_eq_append data _ g2 _).1 t1
  obtain ⟨d2, t2⟩ := (slice_eq_cons data _ 46 _).1 t2
  obtain ⟨-, t3⟩ := (slice_eq_append data _ g3 _).1 t2
  obtain ⟨d3, -⟩ := (slice_eq_cons data _ 46 _).1 t3
  have hcase : (i ≤ g1.length ∧ g1.length < i + 4) ∨
      (i ≤ g1.length + 1 + g2.length ∧ g1.length + 1 + g2.length < i + 4) ∨
      (i ≤ g1.length + 1 + g2.length + 1 + g3.length ∧
        g1.length + 1 + g2.length + 1 + g3.length < i + 4) := by
    omega
  rcases hcase with ⟨a, b⟩ | ⟨a, b⟩ | ⟨a, b⟩
  · refine ⟨g1.length - i, by omega, ?_⟩
    have : i + (g1.length - i) = 0 + g1.length := by omega
    rw [this]; exact d1
  · refine ⟨g1.length + 1 + g2.length - i, by omega, ?_⟩
    have : i + (g1.length + 1 + g2.length - i) = 0 + g1.length + 1 + g2.length := by omega
    rw [this]; exact d2
  · refine ⟨g1.length + 1 + g2.length + 1 + g3.length - i, by omega, ?_⟩
    have : i + (g1.length + 1 + g2.length + 1 + g3.length - i)
        = 0 + g1.length + 1 + g2.length + 1 + g3.length := by omega
    rw [this]; exact d3

/-- The loop of `parse_ip4` indexes the table `m` only with 1, 2 or 3. -/
theorem parse_ip4_loop_lookups (data : Nat → Nat) (os : Nat) :
    ∀ (fuel : Nat) (s : parse_state) (e : loop_exit) (s' : parse_state),
      parse_ip4_loop data os fuel s = some (e, s') →
        ∀ i ∈ s'.lookups, i ∈ s.lookups ∨ (1 ≤ i ∧ i ≤ 3) := by
  intro fuel
  induction fuel with
  | zero => intro s e s' h; simp [parse_ip4_loop] at h
  | succ fuel ih =>
    intro s e s' h
    by_cases hd : isDigit (data s.p % 256)
    · rw [parse_ip4_loop_digit _ _ _ _ hd] at h
      have h2 := ih _ e s' h
      exact h2
    · rw [parse_ip4_loop_other _ _ _ _ hd] at h
      have hmem : ∀ i ∈ s.lookups ++ [s.p - s.ps], ¬ (s.p - s.ps = 0) → ¬ (s.p - s.ps > 3) →
          i ∈ s.lookups ∨ (1 ≤ i ∧ i ≤ 3) := by
        intro i hi c1 c2
        rw [List.mem_append, List.mem_singleton] at hi
        rcases hi with hi | hi
        · exact Or.inl hi
        · right; omega
      split_ifs at h with c1 c2 c3 c4 c5 c6
      · simp only [Option.some.injEq, Prod.mk.injEq] at h
        obtain ⟨-, rfl⟩ := h
        exact fun i hi => Or.inl hi
      · simp only [Option.some.injEq, Prod.mk.injEq] at h
        obtain ⟨-, rfl⟩ := h
        exact fun i hi => Or.inl hi
      · simp only [Option.some.injEq, Prod.mk.injEq] at h
        obtain ⟨-, rfl⟩ := h
        exact fun i hi => hmem i hi c1 c2
      · simp only [Option.some.injEq, Prod.mk.injEq] at h
        obtain ⟨-, rfl⟩ := h
        exact fun i hi => hmem i hi c1 c2
      · simp only [Option.some.injEq, Prod.mk.injEq] at h
        obtain ⟨-, rfl⟩ := h
        exact fun i hi => hmem i hi c1 c2
      · simp only [Option.some.injEq, Prod.mk.injEq] at h
        obtain ⟨-, rfl⟩ := h
        exact fun i hi => hmem i hi c1 c2
      · intro i hi
        rcases ih _ e s' h i hi with h' | h'
        · exact hmem i h' c1 c2
        · exact Or.inr h'

/-- With `ps` not behind `p`, the loop of `parse_ip4` with the difference
`p - ps` in `Int` and the table access checked runs like the loop with the
difference in `Nat`, and never leaves the table. -/
theorem parse_ip4_loop_checked_eq (data : Nat → Nat) (os : Nat) :
    ∀ (fuel : Nat) (s : parse_state), s.ps ≤ s.p →
      parse_ip4_loop_checked data os fuel s = (parse_ip4_loop data os fuel s).map some := by
  intro fuel
  induction fuel with
  | zero => intro s _; rfl
  | succ fuel ih =>
    intro s hle
    have hlen : (s.p : Int) - (s.ps : Int) = ((s.p - s.ps : Nat) : Int) := by omega
    rw [parse_ip4_loop_checked, parse_ip4_loop]
    simp only [hlen, Int.toNat_ofNat]
    by_cases hd : (data s.p % 256 + (2 ^ 64 - 48)) % 2 ^ 64 ≤ 9
    · simp only [hd, if_true]
      exact ih _ (by simp only []; omega)
    · simp only [hd, if_false]
      by_cases c1 : s.p - s.ps = 0
      · simp [c1]
      · by_cases c2 : s.p - s.ps > 3
        · have c2' : ((s.p - s.ps : Nat) : Int) > 3 := by omega
          have c1' : ¬ (((s.p - s.ps : Nat) : Int) = 0) := by omega
          simp [c1, c2, c1', c2']
        · have c2' : ¬ (((s.p - s.ps : Nat) : Int) > 3) := by omega
          have c1' : ¬ (((s.p - s.ps : Nat) : Int) = 0) := by omega
          have c3' : ¬ (((s.p - s.ps : Nat) : Int) < 0 ∨
              (m.length : Int) ≤ ((s.p - s.ps : Nat) : Int)) := by
            simp only [m, List.length_cons, List.length_nil]
            omega
          simp only [c1, c2, c1', c2', c3', if_false]
          split_ifs
          · rfl
          · rfl
          · rfl
          · rfl
          · exact ih _ (by simp only []; omega)

/-- C18: the lookup `m[p - ps]` into the four-entry table `{ 0, 0, 10, 100 }` in
`parse_ip4` is always in bounds. On every input, every index used into the
table is 1, 2 or 3, because the tests for length 0 and for length above 3 come
first; and with `p - ps` taken as a signed difference and every access to the
table checked, the loop of `parse_ip4` never leaves the table and runs as it
does with the unsigned difference. -/
theorem parse_ip4_table_in_bounds (fuel : Nat) (token : token_t) (rdata : rdata_t) :
    (∀ (r : parse_result), parse_ip4 fuel token rdata = some r →
      ∀ i ∈ r.lookups, (i = 1 ∨ i = 2 ∨ i = 3) ∧ i < m.length) ∧
    parse_ip4_loop_checked token.data rdata.octets fuel
        { o := rdata.octets, n := 0, p := 0, ps := 0,
          mem := Function.update rdata.mem rdata.octets 0, reads := [], lookups := [] }
      ≠ some none ∧
    parse_ip4_loop_checked token.data rdata.octets fuel
        { o := rdata.octets, n := 0, p := 0, ps := 0,
          mem := Function.update rdata.mem rdata.octets 0, reads := [], lookups := [] }
      = (parse_ip4_loop token.data rdata.octets fuel
        { o := rdata.octets, n := 0, p := 0, ps := 0,
          mem := Function.update rdata.mem rdata.octets 0, reads := [], lookups := [] }).map
        some := by
  have heq := parse_ip4_loop_checked_eq token.data rdata.octets fuel
    { o := rdata.octets, n := 0, p := 0, ps := 0,
      mem := Function.update rdata.mem rdata.octets 0, reads := [], lookups := [] }
    (Nat.le_refl 0)
  refine ⟨?_, ?_, heq⟩
  · intro r h i hi
    have key : ∀ e s', parse_ip4_loop token.data rdata.octets fuel
        { o := rdata.octets, n := 0, p := 0, ps := 0,
          mem := Function.update rdata.mem rdata.octets 0, reads := [], lookups := [] }
        = some (e, s') → ∀ i ∈ s'.lookups, (i = 1 ∨ i = 2 ∨ i = 3) ∧ i < m.length := by
      intro e s' he i hi
      rcases parse_ip4_loop_lookups token.data rdata.octets fuel _ e s' he i hi with h | h
      · simp at h
      · simp only [m, List.length_cons, List.length_nil]
        omega
    unfold parse_ip4 at h
    simp only [] at h
    split at h
    · simp at h
    · rename_i s he
      simp only [Option.some.injEq] at h
      subst h
      exact key _ _ he i hi
    · rename_i s he
      split_ifs at h
      · simp only [Option.some.injEq] at h
        subst h
        exact key _ _ he i hi
      · simp only [Option.some.injEq] at h
        subst h
        exact key _ _ he i hi
  · rw [heq]
    cases parse_ip4_loop token.data rdata.octets fuel
      { o := rdata.octets, n := 0, p := 0, ps := 0,
        mem := Function.update rdata.mem rdata.octets 0, reads := [], lookups := [] } with
    | none => simp
    | some x => simp

/-- C18 at the token `123.45.6.7` followed by a space: the table is indexed with
3, 2, 1 and 1. -/
theorem parse_ip4_table_in_bounds_witness :
    (∀ i ∈ [3, 2, 1, 1], (i = 1 ∨ i = 2 ∨ i = 3) ∧ i < m.length) ∧
    (parse_ip4 11 ⟨ofList (ascii "123.45.6.7 "), 10⟩ ⟨0, zeros⟩).map
      (fun r => (r.code, r.lookups)) = some (0, [3, 2, 1, 1]) :=
  ⟨(parse_ip4_table_in_bounds 11 ⟨ofList (ascii "123.45.6.7 "), 10⟩ ⟨0, zeros⟩).1
      ⟨0, ⟨0 + 4, Function.update (Function.update (Function.update (Function.update
        (Function.update zeros 0 0) 0 123) 1 45) 2 6) 3 7⟩, 10,
        [0, 1, 2, 3, 3, 4, 5, 6, 6, 7, 8, 8, 9, 10, 10], [3, 2, 1, 1]⟩ rfl,
   by decide⟩

end Simdzone
